import Mathlib

/-!
# Phonomizer core: shallow embedding and verification

This file embeds the core of the `phonomizer` repository — the shared greedy
tokenizer, the phonotactic matcher (`src/lib/phonotactics/matcher.ts`), the
rule reverser (`src/lib/rules/reverser.ts`), the rule compiler
(`src/lib/rules/parser.ts`) and the forward engine — as executable Lean
definitions, and proves properties of them.

JavaScript strings are modelled as `List Char`; a `Set<string>` iterated in
insertion order is modelled as a duplicate-free list built by
insert-if-absent; `Array.prototype.sort` (stable since ES2019) is modelled by
a stable insertion sort with the corresponding comparator; thrown exceptions
are modelled with `Except` (the thrown message) and a non-terminating loop in
the source is modelled by an `Option` layer whose `none` marks divergence.
-/

namespace Phonomizer

/-- A JavaScript string: a sequence of characters. -/
abbrev Str := List Char

/-- Convert a Lean string literal to the `Str` representation. -/
def str (s : String) : Str := s.toList

/-- A compiled rewrite rule, from `src/lib/types/index.ts`: all four fields
are token sequences (`string[]`), the two contexts optional (`undefined`
modelled as `none`). -/
structure Rule where
  from_ : List Str
  to_ : List Str
  leftContext : Option (List Str) := none
  rightContext : Option (List Str) := none
deriving Repr, DecidableEq

/-- A phonotactic word-shape pattern: one set of allowed tokens per
position, from `src/lib/types` (`PhonotacticPattern`). -/
structure PhonotacticPattern where
  positions : List (List Str)
deriving Repr, DecidableEq

/-! ## Phonotactic matcher (`src/lib/phonotactics/matcher.ts`) -/

/-- `matchesPattern` from `matcher.ts`: lengths must agree and each token
must be a member of the allowed set at its position. -/
def matchesPattern (tokens : List Str) (pat : PhonotacticPattern) : Bool :=
  tokens.length == pat.positions.length &&
    (List.zip tokens pat.positions).all (fun p => p.2.contains p.1)

/-- `matchesPhonotactics` from `matcher.ts`: a `null` pattern list
(modelled as `none`) means unconstrained; otherwise `Array.some` over the
patterns. -/
def matchesPhonotactics (tokens : List Str) :
    Option (List PhonotacticPattern) → Bool
  | none => true
  | some ps => ps.any (matchesPattern tokens)

/-! ## Sorting helpers

`[...phonemes].sort((a, b) => b.length - a.length)` is a stable sort by
descending length; `results.sort()` is a sort by ascending lexicographic
string order. Both are modelled by stable insertion sorts. -/

/-- Insert into a descending-by-length list, after all entries of length
`≥ x.length` (stability of the JS sort for the length comparator). -/
def insLenDesc (x : Str) : List Str → List Str
  | [] => [x]
  | y :: ys => if y.length < x.length then x :: y :: ys else y :: insLenDesc x ys

/-- Stable sort by descending length, modelling
`[...l].sort((a, b) => b.length - a.length)`. -/
def sortByLenDesc : List Str → List Str
  | [] => []
  | x :: xs => insLenDesc x (sortByLenDesc xs)

/-- Lexicographic (code-unit) comparison of JS strings: `a <= b`. -/
def lexLe : Str → Str → Bool
  | [], _ => true
  | _ :: _, [] => false
  | a :: as, b :: bs => if a < b then true else if b < a then false else lexLe as bs

/-- Insert into an ascending lexicographic list. -/
def insLex (x : Str) : List Str → List Str
  | [] => [x]
  | y :: ys => if lexLe x y then x :: y :: ys else y :: insLex x ys

/-- Sort by ascending lexicographic order, modelling `results.sort()`. -/
def sortLex : List Str → List Str
  | [] => []
  | x :: xs => insLex x (sortLex xs)

/-! ## Greedy tokenizer

`tokenizeWith` / `tokenize` from `src/lib/rules/reverser.ts` (the same
algorithm appears in the engine): scan left to right, at each position take
the first entry of the length-sorted inventory that is a prefix of the
remaining text; throw (here: `Except.error pos`) when none is.  If the
matching entry is the empty string the source's `while` loop makes no
progress and never terminates; that case is modelled by `none`. -/

/-- The inner `for (const phoneme of sortedPhonemes)` search:
`word.substring(pos, pos + p.length) === p` holds exactly when `p` is a
prefix of the remaining text. -/
def firstMatch (sorted : List Str) (rem : Str) : Option Str :=
  sorted.find? (fun p => p.isPrefixOf rem)

/-- The `while (pos < word.length)` loop of `tokenizeWith`, carrying the
absolute character position for the error message.  Every iteration
consumes at least one character (an empty match yields the divergence
marker `none` instead), so the loop runs at most `word.length` times; the
structural `fuel` argument is that iteration bound, supplied as
`word.length` by `tokenizeWith`. -/
def tokenizeGo (sorted : List Str) : Nat → Nat → Str → Option (Except Nat (List Str))
  | _, _, [] => some (Except.ok [])
  | 0, _, _ :: _ => none
  | fuel + 1, pos, c :: rest =>
    match firstMatch sorted (c :: rest) with
    | none => some (Except.error pos)
    | some [] => none
    | some (t0 :: t1) =>
      (tokenizeGo sorted fuel (pos + (t0 :: t1).length)
          ((c :: rest).drop (t0 :: t1).length)).map
        (fun r => r.map (fun ts => (t0 :: t1) :: ts))

/-- `tokenizeWith(word, sortedPhonemes)` from `reverser.ts`: expects a
pre-sorted inventory. -/
def tokenizeWith (word : Str) (sorted : List Str) : Option (Except Nat (List Str)) :=
  tokenizeGo sorted word.length 0 word

/-- `tokenize(word, phonemes)`: sorts the inventory by descending length,
then scans. -/
def tokenize (word : Str) (phonemes : List Str) : Option (Except Nat (List Str)) :=
  tokenizeWith word (sortByLenDesc phonemes)

/-! ## Reverser (`src/lib/rules/reverser.ts`) -/

/-- The token-array separator `\x01` (`const SEP` in `reverser.ts`). -/
def SEP : Char := '\x01'

/-- `serializeTokens`: the empty array serializes to the empty string,
otherwise the tokens joined by `SEP`. -/
def serializeTokens (ts : List Str) : Str :=
  if ts.isEmpty then [] else List.intercalate [SEP] ts

/-- `deserializeTokens`: the empty string deserializes to the empty array,
otherwise `key.split(SEP)`. -/
def deserializeTokens (k : Str) : List Str :=
  if k.isEmpty then [] else k.splitOn SEP

/-- `matchesContextForSequence` from `reverser.ts`: checks the left/right
contexts of a span `[position, position + seqLen)` inside `tokens`.  A
context equal to `["#"]` demands the span start (resp. end) the whole
sequence; otherwise the adjacent tokens must equal the context tokens
(an out-of-range JS index reads `undefined`, which never equals a string —
modelled by comparing `Option` lookups). -/
def matchesContextForSequence (tokens : List Str) (position seqLen : Nat)
    (leftContext rightContext : Option (List Str)) : Bool :=
  (match leftContext with
   | none => true
   | some lc =>
     if lc == [['#']] then position == 0
     else
       decide (lc.length ≤ position) &&
         (List.range lc.length).all (fun j =>
           tokens.get? (position - lc.length + j) == lc.get? j)) &&
  (match rightContext with
   | none => true
   | some rc =>
     if rc == [['#']] then position + seqLen == tokens.length
     else
       decide (position + seqLen + rc.length ≤ tokens.length) &&
         (List.range rc.length).all (fun j =>
           tokens.get? (position + seqLen + j) == rc.get? j))

/-- The inner loop of `reverseOneRule` that tests whether the target
sequence occurs contiguously at index `i`. -/
def seqMatchesAt (tokens : List Str) (i : Nat) (pat : List Str) : Bool :=
  (List.range pat.length).all (fun j => tokens.get? (i + j) == pat.get? j)

/-- `positionMap.get(i)`: the index of `i` in the positions list. -/
def idxIn : List Nat → Nat → Option Nat
  | [], _ => none
  | p :: ps, i => if p == i then some 0 else (idxIn ps i).map (· + 1)

/-- The `while (i < tokens.length)` reconstruction loop of
`reverseOneRule`'s bitmask enumeration: a selected occurrence is replaced
by `from` and skipped over, everything else is copied.  The target
sequence is `t0 :: t1` (non-empty on this branch), so `i` advances by at
least one per iteration and `tokens.length` iterations suffice; the
structural `fuel` argument is that bound. -/
def reconGo (tokens : List Str) (fro : List Str) (t0 : Str) (t1 : List Str)
    (positions : List Nat) (mask : Nat) : Nat → Nat → List Str
  | 0, _ => []
  | fuel + 1, i =>
    if h : i < tokens.length then
      match idxIn positions i with
      | some k =>
        if mask.testBit k then
          fro ++ reconGo tokens fro t0 t1 positions mask fuel (i + (t0 :: t1).length)
        else
          tokens.get ⟨i, h⟩ :: reconGo tokens fro t0 t1 positions mask fuel (i + 1)
      | none => tokens.get ⟨i, h⟩ :: reconGo tokens fro t0 t1 positions mask fuel (i + 1)
    else []

/-- `reverseOneRule` from `reverser.ts`.  For a deletion rule the
pre-images are the unchanged candidate (when every `from` token is a
source phoneme) plus an insertion of `from` at each index whose context
check passes.  Otherwise every context-valid occurrence of `to` is found
and all `2^k` subsets of occurrences are replaced by `from`. -/
def reverseOneRule (tokens : List Str) (rule : Rule) (sourcePhonemes : List Str) :
    List (List Str) :=
  match rule.to_ with
  | [] =>
    (if rule.from_.all (fun p => sourcePhonemes.contains p) then [tokens] else []) ++
    (List.range (tokens.length + 1)).filterMap (fun i =>
      let testTokens := tokens.take i ++ rule.from_ ++ tokens.drop i
      if matchesContextForSequence testTokens i rule.from_.length
          rule.leftContext rule.rightContext
      then some testTokens else none)
  | t0 :: t1 =>
    let toLen := (t0 :: t1).length
    let positions := (List.range (tokens.length + 1)).filter (fun i =>
      decide (i + toLen ≤ tokens.length) && seqMatchesAt tokens i (t0 :: t1) &&
        matchesContextForSequence tokens i toLen rule.leftContext rule.rightContext)
    if positions.isEmpty then [tokens]
    else (List.range (2 ^ positions.length)).map (fun mask =>
      reconGo tokens rule.from_ t0 t1 positions mask tokens.length 0)

/-- `Set.add`: append a key unless already present (insertion-order set). -/
def addKey {α} [DecidableEq α] (l : List α) (x : α) : List α :=
  if x ∈ l then l else l ++ [x]

/-- The expanded source inventory of `createReverser`: a `Set` seeded with
the source phonemes, then extended with the `from` tokens of every
deletion rule, in rule order. -/
def expandedSourcePhonemes (rules : List Rule) (sourcePhonemes : List Str) : List Str :=
  (sourcePhonemes ++
    ((rules.filter (fun r => r.to_.isEmpty)).map Rule.from_).flatten).foldl addKey []

/-- The final filter loop of `reverseWord`: keep a candidate's joined text
when it tokenizes against the effective source inventory (a thrown
`TokenizationError` is caught and drops the candidate; a diverging
tokenization — only possible with an empty-string phoneme — diverges) and,
when source phonotactics are declared (even as an empty, always-false
list), when the candidate's tokens match them. -/
def collectResults (sortedSrcE : List Str) (srcPt : Option (List PhonotacticPattern)) :
    List Str → Option (List Str)
  | [] => some []
  | k :: ks =>
    let tokens := deserializeTokens k
    let w := tokens.flatten
    match tokenizeWith w sortedSrcE with
    | none => none
    | some (Except.error _) => collectResults sortedSrcE srcPt ks
    | some (Except.ok _) =>
      match srcPt with
      | some ps =>
        if matchesPhonotactics tokens (some ps) then
          (collectResults sortedSrcE srcPt ks).map (fun l => w :: l)
        else collectResults sortedSrcE srcPt ks
      | none => (collectResults sortedSrcE srcPt ks).map (fun l => w :: l)

/-- One step of the reverse fold over the rules: the union, over every
current candidate key, of the serialized pre-images under `rule`,
deduplicated in insertion order. -/
def reverseStep (expSrc : List Str) (keys : List Str) (rule : Rule) : List Str :=
  ((keys.map (fun k =>
    (reverseOneRule (deserializeTokens k) rule expSrc).map serializeTokens)).flatten).foldl
    addKey []

/-- The body of the closure returned by `createReverser` (the per-word
cache is semantically transparent for the pure function and is not
modelled).  Tokenizes the word against the target inventory, folds the
rules in reverse order over the candidate-key set, then filters and sorts
the resulting words. -/
def reverseWord (rules : List Rule) (sourcePhonemes targetPhonemes : List Str)
    (srcPt _tgtPt : Option (List PhonotacticPattern)) (word : Str) :
    Option (Except Nat (List Str)) :=
  let expSrc := expandedSourcePhonemes rules sourcePhonemes
  let sortedTgt := sortByLenDesc targetPhonemes
  let sortedSrcE := sortByLenDesc expSrc
  match tokenizeWith word sortedTgt with
  | none => none
  | some (Except.error p) => some (Except.error p)
  | some (Except.ok init) =>
    let finalKeys := rules.reverse.foldl (reverseStep expSrc) [serializeTokens init]
    (collectResults sortedSrcE srcPt finalKeys).map (fun res => Except.ok (sortLex res))

/-- `reverseRules` from `reverser.ts`: builds a reverser and applies it
once (the `_targetPhonotactics` argument is accepted and ignored, as in
the source). -/
def reverseRules (word : Str) (rules : List Rule) (sourcePhonemes targetPhonemes : List Str)
    (srcPt tgtPt : Option (List PhonotacticPattern)) : Option (Except Nat (List Str)) :=
  reverseWord rules sourcePhonemes targetPhonemes srcPt tgtPt word

/-! ## Forward engine

The current sequence-based `engine.ts` is not among the retrieved source
files: the `engine.ts` snapshot in the tree is an older revision whose
`Rule` fields are single strings and which no longer typechecks against
the array-valued `Rule` of `src/lib/types/index.ts` used by `parser.ts`
and `reverser.ts`.  The forward pass is therefore modelled from spec §4.3,
which also fixes the context interpretation shared with the reverser
(`matchesContextForSequence`). -/

/-- Modelled from the spec: the engine's per-position match test — missing
current `engine.ts` (`applyRuleToTokens`).  The full `from` sequence must
match contiguously at `i` and the left/right context must hold, contexts
"interpreted exactly as in §4.3" — the same check the reverser uses.  A
compiled `Rule` has a non-empty `from` (spec §3); the guard excludes the
empty `from`, on which the source's scan loop would not advance. -/
def engineMatchAt (tokens : List Str) (rule : Rule) (i : Nat) : Bool :=
  !rule.from_.isEmpty && seqMatchesAt tokens i rule.from_ &&
    matchesContextForSequence tokens i rule.from_.length
      rule.leftContext rule.rightContext

/-- Modelled from the spec: the engine's single-rule scan loop — missing
current `engine.ts` (`applyRuleToTokens`).  Scan left to right; on a match
splice in `to` and advance past the replacement, otherwise copy one token
and advance by one.  Each iteration advances `i` by at least one, so
`tokens.length` iterations suffice; the structural `fuel` argument is that
bound. -/
def engineScan (tokens : List Str) (rule : Rule) : Nat → Nat → List Str
  | 0, _ => []
  | fuel + 1, i =>
    if h : i < tokens.length then
      if engineMatchAt tokens rule i then
        rule.to_ ++ engineScan tokens rule fuel (i + rule.from_.length)
      else
        tokens.get ⟨i, h⟩ :: engineScan tokens rule fuel (i + 1)
    else []

/-- Modelled from the spec: one forward pass of a single rule over a token
sequence — missing current `engine.ts` (`applyRuleToTokens`). -/
def applyRuleToTokens (tokens : List Str) (rule : Rule) : List Str :=
  engineScan tokens rule tokens.length 0

/-- Modelled from the spec: the fold of the compiled rule list, in
declaration order, over the token sequence (spec §4.3: no re-tokenization
between rules) — missing current `engine.ts` (`applyRules`). -/
def applyTokens (rules : List Rule) (tokens : List Str) : List Str :=
  rules.foldl applyRuleToTokens tokens

/-- Modelled from the spec: `apply(word, rules, sourceInventory,
targetInventory)` — missing current `engine.ts` (`applyRules`).  Tokenizes
the word against the source inventory (propagating a `TokenizationError`),
folds the rules, and concatenates the final tokens. -/
def applyRules (word : Str) (rules : List Rule)
    (sourcePhonemes _targetPhonemes : List Str) : Option (Except Nat Str) :=
  (tokenize word sourcePhonemes).map
    (fun r => r.map (fun ts => (applyTokens rules ts).flatten))

/-! ### The claim's declarative formulation of one pass: earliest-match
splicing.  `earliestMatch tokens rule i` is the least index `≥ i` at which
the rule matches; the pass copies up to it, splices `to`, and resumes past
the replacement. -/

/-- The least match index `j ≥ i`, if any. -/
def earliestMatch (tokens : List Str) (rule : Rule) (i : Nat) : Option Nat :=
  (List.range' i (tokens.length - i)).find? (engineMatchAt tokens rule)

/-- The earliest-match splicing pass of claim C2: repeatedly find the
earliest match at or after the scan position, splice `to` there, and
continue just past the replacement; matches never overlap.  One splice per
iteration, and each splice advances the position, so `tokens.length + 1`
iterations suffice (the structural `fuel`). -/
def spliceGo (tokens : List Str) (rule : Rule) : Nat → Nat → List Str
  | 0, i => tokens.drop i
  | fuel + 1, i =>
    match earliestMatch tokens rule i with
    | none => tokens.drop i
    | some j =>
      (tokens.drop i).take (j - i) ++ rule.to_ ++
        spliceGo tokens rule fuel (j + rule.from_.length)

/-- The whole-sequence earliest-match splicing pass. -/
def earliestSplicePass (tokens : List Str) (rule : Rule) : List Str :=
  spliceGo tokens rule (tokens.length + 1) 0

/-! ## Rule compiler (`src/lib/rules/parser.ts`)

String manipulation primitives first: JS `trim`, `split(/\s+/)` with its
non-empty filter, whitespace collapsing, and the character-level semantics
of the few regexes the parser uses.  Several loops advance by computed
offsets; those take a structural `fuel` argument bounding their iteration
count, supplied generously by the wrappers (the bound is never reached on
a terminating source execution). -/

/-- JS `\s` (the whitespace class used by `trim`, `/\s+/` and `/\s/`),
restricted to the ASCII whitespace actually occurring in rule text. -/
def isWsChar (c : Char) : Bool :=
  c == ' ' || c == '\t' || c == '\n' || c == '\r' || c == '\x0b' || c == '\x0c'

/-- JS `String.prototype.trim`. -/
def jsTrim (s : Str) : Str :=
  ((s.dropWhile isWsChar).reverse.dropWhile isWsChar).reverse

/-- Split into whitespace-delimited runs, keeping empties (helper). -/
def wsSplitRuns (s : Str) : List Str :=
  s.foldr
    (fun c acc =>
      match acc with
      | [] => [[c]]
      | t :: ts => if isWsChar c then [] :: t :: ts else (c :: t) :: ts)
    [[]]

/-- JS `s.split(/\s+/).filter(p => p.length > 0)`: the maximal non-blank
runs of `s`. -/
def wsSplitNE (s : Str) : List Str :=
  (wsSplitRuns s).filter (fun t => !t.isEmpty)

/-- JS `s.replace(/\s+/g, ' ').trim()`. -/
def collapseWs (s : Str) : Str :=
  List.intercalate [' '] (wsSplitNE s)

/-- JS `s.indexOf(c)` for a single character. -/
def idxOf (c : Char) (s : Str) : Option Nat :=
  s.findIdx? (· == c)

/-- JS `s.replace(target, repl)` for literal `target`: replace the first
occurrence only (an empty target matches at the start). -/
def replaceFirst : Str → Str → Str → Str
  | [], target, repl => if target.isEmpty then repl else []
  | c :: rest, target, repl =>
    if target.isPrefixOf (c :: rest) then repl ++ (c :: rest).drop target.length
    else c :: replaceFirst rest target repl

/-- JS `s.indexOf(pat)` for a literal substring. -/
def findSubIdx : Str → Str → Option Nat
  | [], pat => if pat.isEmpty then some 0 else none
  | c :: rest, pat =>
    if pat.isPrefixOf (c :: rest) then some 0
    else (findSubIdx rest pat).map (· + 1)

/-- JS `s.endsWith(";")`-style last-character test. -/
def lastIs (c : Char) (s : Str) : Bool := s.getLast? == some c

/-- Decimal rendering of a line number or position for error messages. -/
def natStr (n : Nat) : Str := (Nat.repr n).toList

/-- JS regex word character `\w` = `[A-Za-z0-9_]`, for `\b` boundaries. -/
def isWordChar (c : Char) : Bool :=
  ('a' ≤ c && c ≤ 'z') || ('A' ≤ c && c ≤ 'Z') || ('0' ≤ c && c ≤ '9') || c == '_'

/-- A `\b` word boundary between an optional previous character and an
optional next character: the two sides differ in word-character-ness. -/
def boundaryBetween (prev next : Option Char) : Bool :=
  (match prev with | some c => isWordChar c | none => false) !=
  (match next with | some c => isWordChar c | none => false)

/-- Whether the literal `name` occurs in `s` surrounded by `\b` boundaries
(the `regex.test` of `resolveVariables`' `\bNAME\b` pattern).  `prev` is
the character before the current scan position. -/
def hasBoundaryOccFrom (name : Str) : Option Char → Str → Bool
  | _, [] => false
  | prev, c :: rest =>
    (decide (name ≠ []) && name.isPrefixOf (c :: rest) &&
      boundaryBetween prev (name.head?) &&
      boundaryBetween (name.getLast?) (((c :: rest).drop name.length).head?)) ||
    hasBoundaryOccFrom name (some c) rest

/-- `regex.test(s)` for `\bNAME\b`. -/
def hasBoundaryOcc (name s : Str) : Bool := hasBoundaryOccFrom name none s

/-- The global replacement `s.replace(/\bNAME\b/g, value)`: non-overlapping
left-to-right matches; after a match the scan resumes just past it, with
the last character of `name` as the new left context.  Each step consumes
at least one character of `s` (a matched `name` is non-empty), so
`s.length` iterations of fuel suffice. -/
def replaceBoundaryGo (name value : Str) : Nat → Option Char → Str → Str
  | _, _, [] => []
  | 0, _, s => s
  | fuel + 1, prev, c :: rest =>
    if decide (name ≠ []) && name.isPrefixOf (c :: rest) &&
        boundaryBetween prev (name.head?) &&
        boundaryBetween (name.getLast?) (((c :: rest).drop name.length).head?) then
      value ++ replaceBoundaryGo name value fuel (name.getLast?) ((c :: rest).drop name.length)
    else
      c :: replaceBoundaryGo name value fuel (some c) rest

/-- `s.replace(/\bNAME\b/g, value)`. -/
def replaceBoundary (name value s : Str) : Str :=
  replaceBoundaryGo name value s.length none s

/-- The delimiter class `[\s\[\]>/_;]` of `substituteVariables`' pattern. -/
def isDelimChar (c : Char) : Bool :=
  isWsChar c || c == '[' || c == ']' || c == '>' || c == '/' || c == '_' || c == ';'

/-- The lookahead `(?=[\s\[\]>/_;]|$)`. -/
def delimLookahead (rem : Str) : Bool :=
  match rem with
  | [] => true
  | d :: _ => isDelimChar d

/-- The global replacement for `(^|[\s\[\]>/_;])NAME(?=[\s\[\]>/_;]|$)`,
preserving the captured delimiter: at the start of the string the `^`
alternative may match; elsewhere a delimiter character is consumed before
`name`.  `atStart` tracks whether the scan position is index 0.  Fuel as
in `replaceBoundaryGo`. -/
def substVarGo (name value : Str) : Nat → Bool → Str → Str
  | _, _, [] => []
  | 0, _, s => s
  | fuel + 1, atStart, c :: rest =>
    if atStart && decide (name ≠ []) && name.isPrefixOf (c :: rest) &&
        delimLookahead ((c :: rest).drop name.length) then
      value ++ substVarGo name value fuel false ((c :: rest).drop name.length)
    else if isDelimChar c && decide (name ≠ []) && name.isPrefixOf rest &&
        delimLookahead (rest.drop name.length) then
      c :: (value ++ substVarGo name value fuel false (rest.drop name.length))
    else
      c :: substVarGo name value fuel false rest

/-- One variable's substitution pass of `substituteVariables`. -/
def substVar (name value s : Str) : Str :=
  substVarGo name value s.length true s

/-- Stable insertion into a names-sorted-by-descending-length entry list
(`substituteVariables`' `sort((a, b) => b[0].length - a[0].length)`). -/
def insVarLenDesc (x : Str × Str) : List (Str × Str) → List (Str × Str)
  | [] => [x]
  | y :: ys =>
    if y.1.length < x.1.length then x :: y :: ys else y :: insVarLenDesc x ys

/-- Stable sort of variable entries by descending name length. -/
def sortVarsByLenDesc : List (Str × Str) → List (Str × Str)
  | [] => []
  | x :: xs => insVarLenDesc x (sortVarsByLenDesc xs)

/-- `substituteVariables(line, variables)` from `parser.ts`: longest names
first, replacing each at token boundaries while keeping the delimiter. -/
def substituteVariables (line : Str) (varDefs : List (Str × Str)) : Str :=
  (sortVarsByLenDesc varDefs).foldl (fun result nv => substVar nv.1 nv.2 result) line

/-- A JS `Map` as an insertion-ordered association list: `set` updates in
place or appends. -/
def mapSet (m : List (Str × Str)) (k v : Str) : List (Str × Str) :=
  match m with
  | [] => [(k, v)]
  | (k', v') :: rest => if k' == k then (k, v) :: rest else (k', v') :: mapSet rest k v

/-- `Map.get`. -/
def mapGet (m : List (Str × Str)) (k : Str) : Option Str :=
  match m with
  | [] => none
  | (k', v') :: rest => if k' == k then some v' else mapGet rest k

/-- `parseVariableDefinition` from `parser.ts`: strip a trailing `;`, find
`=` (which must come before any `>`), split into trimmed name and value. -/
def parseVariableDefinition (line : Str) : Option (Str × Str) :=
  let ws := if lastIs ';' line then jsTrim line.dropLast else jsTrim line
  match idxOf '=' ws with
  | none => none
  | some eqIdx =>
    if (match idxOf '>' ws with | some g => decide (g < eqIdx) | none => false) then none
    else
      let name := jsTrim (ws.take eqIdx)
      let value := jsTrim (ws.drop (eqIdx + 1))
      if name.isEmpty then none else some (name, value)

/-- The work items of `resolveVariables`' recursion: resolving one name,
or the substitution loop over the definition keys inside one resolution.
The source's mutual recursion is flattened onto one structural fuel. -/
inductive RWork where
  | resolve (name : Str) (visiting : List Str)
  | loop (keys : List (Str × Str)) (visiting : List Str) (substituted : Str)

/-- The recursive resolver of `resolveVariables`: memoized in `resolved`,
cycle-checked via `visiting`, substituting every referenced variable
(recursively resolved) into the raw value.  The fuel bounds the call
depth; the source recursion is bounded because `visiting` grows strictly
inside the key set, so the generous bound of `resolveVariables` is never
reached. -/
def resolveRun (defs : List (Str × Str)) :
    Nat → RWork → List (Str × Str) → Except Str (Str × List (Str × Str))
  | 0, _, _ => Except.error (str "variable resolution recursion bound exceeded")
  | fuel + 1, RWork.resolve name visiting, resolved =>
    match mapGet resolved name with
    | some v => Except.ok (v, resolved)
    | none =>
      if name ∈ visiting then
        Except.error (str "Circular reference in variable: " ++ name)
      else
        match mapGet defs name with
        | none => Except.ok (name, resolved)
        | some rawValue =>
          if rawValue.isEmpty then Except.ok (name, resolved)
          else do
            let (substituted, resolved') ←
              resolveRun defs fuel (RWork.loop defs (name :: visiting) rawValue) resolved
            Except.ok (substituted, mapSet resolved' name substituted)
  | _ + 1, RWork.loop [] _ substituted, resolved => Except.ok (substituted, resolved)
  | fuel + 1, RWork.loop ((varName, _) :: restKeys) visiting substituted, resolved =>
    if hasBoundaryOcc varName substituted then do
      let (rv, resolved') ← resolveRun defs fuel (RWork.resolve varName visiting) resolved
      resolveRun defs fuel
        (RWork.loop restKeys visiting (replaceBoundary varName rv substituted)) resolved'
    else
      resolveRun defs fuel (RWork.loop restKeys visiting substituted) resolved

/-- `resolveVariables` from `parser.ts`: resolve every definition in
insertion order, threading the memo map (whose insertion order is the
completion order of the resolutions). -/
def resolveVariables (defs : List (Str × Str)) : Except Str (List (Str × Str)) :=
  defs.foldlM
    (fun resolved nv => do
      let (_, resolved') ←
        resolveRun defs ((defs.length + 2) * (defs.length + 2)) (RWork.resolve nv.1 []) resolved
      pure resolved')
    []

/-- The depth-0 token split of `flattenNestedClass`'s character loop:
brackets track depth, depth-0 whitespace separates tokens. -/
def classTokensGo : Str → Int → Str → List Str
  | [], _, current => if current.isEmpty then [] else [current.reverse]
  | ch :: rest, depth, current =>
    if ch == '[' then classTokensGo rest (depth + 1) (ch :: current)
    else if ch == ']' then classTokensGo rest (depth - 1) (ch :: current)
    else if isWsChar ch && depth == 0 then
      if current.isEmpty then classTokensGo rest 0 []
      else current.reverse :: classTokensGo rest 0 []
    else classTokensGo rest depth (ch :: current)

/-- The top-level tokens of a class body. -/
def classTokens (content : Str) : List Str := classTokensGo content 0 []

/-- `flattenNestedClass` from `parser.ts`: strip the outer brackets, split
at depth 0, recurse into each token.  Each recursion strips a bracket
pair, so `s.length` of fuel suffices. -/
def flattenNestedClass : Nat → Str → Except Str (List Str)
  | fuel, s =>
    let trimmed := jsTrim s
    if (['['].isPrefixOf trimmed && lastIs ']' trimmed) then
      let content := jsTrim (trimmed.drop 1).dropLast
      if content.isEmpty then
        Except.error (str "Class cannot be empty: \"[]\"")
      else
        match fuel with
        | 0 => Except.error (str "class nesting bound exceeded")
        | f + 1 => do
          let rs ← (classTokens content).mapM (flattenNestedClass f)
          pure rs.flatten
    else
      Except.ok [trimmed]

/-- The top-level class count of `extractClass`'s scan. -/
def topLevelClassCount (s : Str) : Nat :=
  (s.foldl
    (fun (st : Int × Nat) ch =>
      if ch == '[' then (st.1 + 1, if st.1 == 0 then st.2 + 1 else st.2)
      else if ch == ']' then (st.1 - 1, st.2)
      else st)
    ((0 : Int), 0)).2

/-- `extractClass` from `parser.ts`: `none` when the string is not a
single bracketed class, otherwise its flattened phonemes. -/
def extractClass (s : Str) : Except Str (Option (List Str)) :=
  let trimmed := jsTrim s
  if !(['['].isPrefixOf trimmed && lastIs ']' trimmed) then Except.ok none
  else if topLevelClassCount trimmed > 1 then Except.ok none
  else (flattenNestedClass trimmed.length trimmed).map some

/-- The matches of `/\[([^\]]+)\]/g` over `s`, leftmost and
non-overlapping, as (full match, class body) pairs.  The scan resumes
after each match (or one character further on failure); `s.length` of
fuel bounds it. -/
def findClassMatches : Nat → Str → List (Str × Str)
  | 0, _ => []
  | _ + 1, [] => []
  | fuel + 1, c :: rest =>
    if c == '[' then
      let content := rest.takeWhile (· ≠ ']')
      match rest.dropWhile (· ≠ ']') with
      | ']' :: rest2 =>
        if content.isEmpty then findClassMatches fuel rest
        else (c :: content ++ [']'], content) :: findClassMatches fuel rest2
      | _ => []
    else findClassMatches fuel rest

/-- `expandEmbeddedClasses` from `parser.ts`: for each class match (found
on the original string), replace its first occurrence in every current
variant by each of its phonemes, collapsing whitespace and dropping empty
results. -/
def expandEmbeddedClasses (s : Str) : List Str :=
  let classMatches := findClassMatches s.length s
  if classMatches.isEmpty then [s]
  else
    classMatches.foldl
      (fun results m =>
        let phonemes := wsSplitNE m.2
        results.flatMap (fun r =>
          phonemes.filterMap (fun p =>
            let cleaned := collapseWs (replaceFirst r m.1 p)
            if cleaned.isEmpty then none else some cleaned)))
      [s]

/-- A parsed context segment of `parseSegments`. -/
inductive Seg where
  | fixed (content : Str)
  | opt (content : Str)
deriving Repr, DecidableEq

/-- Segment content. -/
def Seg.content : Seg → Str
  | .fixed c => c
  | .opt c => c

/-- Whether a segment is optional. -/
def Seg.isOpt : Seg → Bool
  | .fixed _ => false
  | .opt _ => true

/-- The inner `j`-scan of `parseSegments` looking for the `)` matching a
depth-0 `(`: `(`/`[` push, `)`/`]` pop, a `)` at inner depth 0 closes.
Returns the enclosed fragment and the remainder. -/
def findCloseParen : Str → Int → Str → Option (Str × Str)
  | [], _, _ => none
  | ch :: rest, d, acc =>
    if ch == '(' || ch == '[' then findCloseParen rest (d + 1) (ch :: acc)
    else if ch == ')' || ch == ']' then
      if d == 0 && ch == ')' then some (acc.reverse, rest)
      else findCloseParen rest (d - 1) (ch :: acc)
    else findCloseParen rest d (ch :: acc)

/-- Flush accumulated fixed content (trimmed, kept only if non-empty). -/
def flushFixed (accRev : Str) : List Seg :=
  let f := jsTrim accRev.reverse
  if f.isEmpty then [] else [Seg.fixed f]

/-- The scan loop of `parseSegments`: bracket depth guards the `_`-free
`(` detection; a depth-0 `(` flushes the pending fixed content and emits
the optional group found by `findCloseParen` (or throws `Unclosed optional
group`).  Fuel bounds the jumps past optional groups. -/
def parseSegmentsGo (context : Str) : Nat → Str → Int → Str → Except Str (List Seg)
  | _, [], _, acc => Except.ok (flushFixed acc)
  | 0, _ :: _, _, _ => Except.error (str "segment scan bound exceeded")
  | fuel + 1, ch :: rest, depth, acc =>
    if ch == '[' then parseSegmentsGo context fuel rest (depth + 1) (ch :: acc)
    else if ch == ']' then parseSegmentsGo context fuel rest (depth - 1) (ch :: acc)
    else if ch == '(' && depth == 0 then
      match findCloseParen rest 0 [] with
      | none =>
        Except.error (str "Unclosed optional group '(' in context: \"" ++ context ++ str "\"")
      | some (inner, rest2) => do
        let tail ← parseSegmentsGo context fuel rest2 0 []
        pure (flushFixed acc ++ Seg.opt inner :: tail)
    else parseSegmentsGo context fuel rest depth (ch :: acc)

/-- `parseSegments` from `parser.ts`. -/
def parseSegments (context : Str) : Except Str (List Seg) :=
  parseSegmentsGo context (context.length + 1) context 0 []

/-- The join of one combination in `expandOptionalGroups`:
`parts.filter(p => p.trim()).join(' ').replace(/\s+/g, ' ').trim()`. -/
def joinParts (parts : List Str) : Str :=
  collapseWs (List.intercalate [' '] (parts.filter (fun p => !(jsTrim p).isEmpty)))

/-- `expandOptionalGroups` from `parser.ts`: split into segments; with no
optional segment the side passes through joined; otherwise enumerate all
present/absent combinations (nested optionals recurse, present variants
first), deduplicate by the joined string, and render the empty
combination as `none` (no context constraint).  Fuel bounds the nesting
depth (each recursion drops the enclosing parentheses). -/
def expandOptionalGroups : Nat → Str → Except Str (List (Option Str))
  | fuel, context => do
    let segments ← parseSegments context
    if segments.isEmpty then pure [none]
    else if !(segments.any Seg.isOpt) then
      let joined := collapseWs (List.intercalate [' '] (segments.map Seg.content))
      pure [if joined.isEmpty then none else some joined]
    else
      match fuel with
      | 0 => Except.error (str "optional group nesting bound exceeded")
      | f + 1 => do
        let combos ← segments.foldlM
          (fun (combos : List (List Str)) seg =>
            match seg with
            | Seg.fixed content =>
              let trimmed := jsTrim content
              if trimmed.isEmpty then pure combos
              else pure (combos.map (fun c => c ++ [trimmed]))
            | Seg.opt content => do
              let innerAll ← expandOptionalGroups f content
              let innerVariants := innerAll.filterMap (fun v =>
                match v with
                | none => none
                | some s => if (jsTrim s).isEmpty then none else some s)
              pure (combos.flatMap (fun c =>
                innerVariants.map (fun inner => c ++ [inner]) ++ [c])))
          [[]]
        let dedup := (combos.map joinParts).foldl addKey []
        pure (dedup.map (fun j => if j.isEmpty then none else some j))

/-- `collectAllPhonemes`' per-string extraction: brackets become spaces,
then the non-blank tokens minus the special markers. -/
def phonemesOf (s : Str) : List Str :=
  (wsSplitNE (s.map (fun ch => if ch == '[' || ch == ']' then ' ' else ch))).filter
    (fun t =>
      !(t == str "_") && !(t == str "#") && !(t == str "!") && !(t == str "∅") &&
        !(['!'].isPrefixOf t))

/-- `collectAllPhonemes` from `parser.ts`: the phoneme universe (an
insertion-ordered set) gathered from all resolved variable values and all
rule lines (main part split at `>`, plus the first context part). -/
def collectAllPhonemes (vars : List (Str × Str)) (ruleLines : List Str) : List Str :=
  let acc1 := vars.foldl (fun acc nv => (phonemesOf nv.2).foldl addKey acc) []
  ruleLines.foldl
    (fun acc line =>
      let withoutSemicolon := replaceFirst line [';'] []
      let parts := withoutSemicolon.splitOn '/'
      let fromTo := (parts.headD []).splitOn '>' |>.map jsTrim
      let acc :=
        match fromTo.head? with
        | some f => if f.isEmpty then acc else (phonemesOf f).foldl addKey acc
        | none => acc
      let acc :=
        match fromTo.get? 1 with
        | some t => if t.isEmpty then acc else (phonemesOf t).foldl addKey acc
        | none => acc
      match parts.get? 1 with
      | some ctx => if ctx.isEmpty then acc else (phonemesOf ctx).foldl addKey acc
      | none => acc)
    acc1

/-- `expandNegativeSet` from `parser.ts`: the complement of the listed
tokens within the universe, re-bracketed; an empty body yields the whole
universe; an empty complement throws. -/
def expandNegativeSet (negativeSet : Str) (univ : List Str) : Except Str Str :=
  let content := jsTrim ((negativeSet.drop 2).dropLast)
  if content.isEmpty then
    Except.ok ('[' :: List.intercalate [' '] univ ++ [']'])
  else do
    let toExclude ← flattenNestedClass ('[' :: content ++ [']']).length
      ('[' :: content ++ [']'])
    let complement := univ.filter (fun p => !(toExclude.contains p))
    if complement.isEmpty then
      Except.error (str "Negative set " ++ negativeSet ++
        str " excludes all phonemes - no phonemes left")
    else
      Except.ok ('[' :: List.intercalate [' '] complement ++ [']'])

/-- The bracket scan locating the `]` closing a `![`: depth-counting from
just past the `![`; returns the offset of the closer. -/
def negEndScan : Str → Int → Nat → Option Nat
  | [], _, _ => none
  | ch :: rest, depth, i =>
    if ch == '[' then negEndScan rest (depth + 1) (i + 1)
    else if ch == ']' then
      if depth == 0 then some i else negEndScan rest (depth - 1) (i + 1)
    else negEndScan rest depth (i + 1)

/-- The `while (true)` loop of `expandNegativeSets`: find the next `![`,
expand it in place, repeat.  Each iteration removes a `!` and introduces
none, so `s.length + 1` of fuel suffices. -/
def expandNegativeSetsGo (univ : List Str) : Nat → Str → Except Str Str
  | 0, _ => Except.error (str "negative set expansion bound exceeded")
  | fuel + 1, s =>
    match findSubIdx s (str "![") with
    | none => Except.ok s
    | some bangIdx =>
      match negEndScan (s.drop (bangIdx + 2)) 0 (bangIdx + 2) with
      | none =>
        Except.error (str "Unclosed negative set starting at position " ++ natStr bangIdx)
      | some endIdx => do
        let negSet := (s.drop bangIdx).take (endIdx + 1 - bangIdx)
        let expanded ← expandNegativeSet negSet univ
        expandNegativeSetsGo univ fuel (s.take bangIdx ++ expanded ++ s.drop (endIdx + 1))

/-- `expandNegativeSets` from `parser.ts`. -/
def expandNegativeSets (s : Str) (univ : List Str) : Except Str Str :=
  expandNegativeSetsGo univ (s.length + 1) s

/-- `expandRule` from `parser.ts`: validate class shapes, build the
from/to pairs (paired or broadcast), expand each context side (whole-side
class, else optional groups then embedded classes), and emit the Cartesian
product as concrete `Rule`s with whitespace-split token arrays, `∅` (or
empty) as deletion, and empty context arrays as absent contexts. -/
def expandRule (bFrom bTo : Str) (bLeft bRight : Option Str) (lineNum : Nat)
    (originalLine : Str) : Except Str (List Rule) := do
  let fromClass ← extractClass bFrom
  let toClass ← extractClass bTo
  let leftContextClass ←
    match bLeft with
    | some lc => extractClass lc
    | none => pure none
  let rightContextClass ←
    match bRight with
    | some rc => extractClass rc
    | none => pure none
  if toClass.isSome && !fromClass.isSome then
    Except.error (str "Line " ++ natStr lineNum ++
      str ": Class in target requires class in source: \"" ++ originalLine ++ str "\"")
  else do
    match fromClass, toClass with
    | some fc, some tc =>
      if fc.length ≠ tc.length then
        Except.error (str "Line " ++ natStr lineNum ++
          str ": Class lengths must match for paired mapping: [" ++
          List.intercalate [' '] fc ++ str "] has " ++ natStr fc.length ++
          str " phonemes, [" ++ List.intercalate [' '] tc ++ str "] has " ++
          natStr tc.length ++ str " phonemes")
      else pure ()
    | _, _ => pure ()
    let fromToOptions : List (Str × Str) :=
      match fromClass, toClass with
      | some fc, some tc => fc.zip tc
      | some fc, none => fc.map (fun f => (f, bTo))
      | none, _ => [(bFrom, bTo)]
    let leftContextOptions : List (Option Str) ←
      match leftContextClass with
      | some lcc => pure (lcc.map some)
      | none => do
        let optVariants ← expandOptionalGroups ((bLeft.getD []).length + 1) (bLeft.getD [])
        pure (optVariants.flatMap (fun v =>
          match v with
          | none => [none]
          | some s => (expandEmbeddedClasses s).map some))
    let rightContextOptions : List (Option Str) ←
      match rightContextClass with
      | some rcc => pure (rcc.map some)
      | none => do
        let optVariants ← expandOptionalGroups ((bRight.getD []).length + 1) (bRight.getD [])
        pure (optVariants.flatMap (fun v =>
          match v with
          | none => [none]
          | some s => (expandEmbeddedClasses s).map some))
    pure (fromToOptions.flatMap (fun ft =>
      leftContextOptions.flatMap (fun lc =>
        rightContextOptions.map (fun rc =>
          let fromArray := wsSplitNE ft.1
          let toArray :=
            if ft.2.isEmpty || jsTrim ft.2 == str "∅" then [] else wsSplitNE ft.2
          let leftArr :=
            match lc with
            | none => none
            | some s => let a := wsSplitNE s; if a.isEmpty then none else some a
          let rightArr :=
            match rc with
            | none => none
            | some s => let a := wsSplitNE s; if a.isEmpty then none else some a
          { from_ := fromArray, to_ := toArray,
            leftContext := leftArr, rightContext := rightArr }))))

/-- The placeholder scan of `parseRules`: the first `_` not nested inside
brackets or parentheses. -/
def underscoreIdx : Str → Int → Option Nat
  | [], _ => none
  | c :: rest, depth =>
    if c == '[' || c == '(' then (underscoreIdx rest (depth + 1)).map (· + 1)
    else if c == ']' || c == ')' then (underscoreIdx rest (depth - 1)).map (· + 1)
    else if c == '_' && depth == 0 then some 0
    else (underscoreIdx rest depth).map (· + 1)

/-- `parseRules` from `parser.ts`: line classification (blank and `#`
lines dropped, `=`-before-`>` lines are variable definitions, the rest
rule lines with 1-based numbers), variable resolution, substitution,
universe collection, negative-set expansion, structural parse of
`from > to / left _ right`, and class/optional expansion via
`expandRule`. -/
def parseRules (rulesText : Str) : Except Str (List Rule) := do
  let lines := rulesText.splitOn '\n'
  let (varDefs, ruleLines) := lines.enum.foldl
    (fun (st : List (Str × Str) × List (Str × Nat)) p =>
      let line := jsTrim p.2
      if line.isEmpty || ['#'].isPrefixOf line then st
      else
        match parseVariableDefinition line with
        | some nv => (mapSet st.1 nv.1 nv.2, st.2)
        | none => (st.1, st.2 ++ [(line, p.1 + 1)]))
    ([], [])
  let resolvedVars ← resolveVariables varDefs
  let substitutedLines := ruleLines.map (fun lr => substituteVariables lr.1 resolvedVars)
  let allPhonemes := collectAllPhonemes resolvedVars substitutedLines
  ruleLines.foldlM
    (fun (rules : List Rule) lr => do
      let line := lr.1
      let lineNum := lr.2
      let substituted ← expandNegativeSets (substituteVariables line resolvedVars) allPhonemes
      let rulePart := if lastIs ';' substituted then jsTrim substituted.dropLast
        else jsTrim substituted
      let (mainPart, contextPart) :=
        match idxOf '/' rulePart with
        | some si =>
          let ctx := jsTrim (rulePart.drop (si + 1))
          (jsTrim (rulePart.take si), if ctx.isEmpty then none else some ctx)
        | none => (rulePart, none)
      let parts := mainPart.splitOn '>'
      if parts.length ≠ 2 then
        Except.error (str "Line " ++ natStr lineNum ++
          str ": Rule must have format \"from > to;\": \"" ++ line ++ str "\"")
      else do
        let fro := jsTrim (parts.headD [])
        let to_ := jsTrim (parts.getD 1 [])
        if fro.isEmpty then
          Except.error (str "Line " ++ natStr lineNum ++ str ": Source pattern cannot be empty")
        else do
          let ctxSides : Option Str × Option Str ←
            match contextPart with
            | none => pure (none, none)
            | some ctx =>
              match underscoreIdx ctx 0 with
              | none =>
                Except.error (str "Line " ++ natStr lineNum ++
                  str ": Context must contain _ to mark phoneme position: \"" ++
                  line ++ str "\"")
              | some ui =>
                let lc := jsTrim (ctx.take ui)
                let rc := jsTrim (ctx.drop (ui + 1))
                pure (if lc.isEmpty then none else some lc,
                  if rc.isEmpty then none else some rc)
          let expanded ← expandRule fro to_ ctxSides.1 ctxSides.2 lineNum line
          pure (rules ++ expanded))
    []

/-! ## Specification notions for the round-trip claim (C1) -/

/-- A well-formed phoneme token: non-empty and free of the serialization
separator (the source's stated assumption "Must not appear in any phoneme
text"). -/
abbrev CleanTok (u : Str) : Prop := u ≠ [] ∧ SEP ∉ u

/-- The context-free single-rule pass in structural form: replace every
leftmost non-overlapping occurrence of `f0 :: frest` by `t`, copying
everything else.  Used to reason about the engine's pass on rules without
contexts. -/
def plainPass (f0 : Str) (frest : List Str) (t : List Str) : List Str → List Str
  | [] => []
  | x :: xs =>
    if (f0 :: frest).isPrefixOf (x :: xs) then
      t ++ plainPass f0 frest t (xs.drop frest.length)
    else x :: plainPass f0 frest t xs
termination_by l => l.length
decreasing_by
  all_goals simp only [List.length_cons, List.length_drop]; omega

/-- `Reinsert t f post pre`: `pre` arises from `post` by replacing some
pairwise non-overlapping occurrences of `t` with `f`, left to right.  The
pre-images of a candidate under a context-free non-deletion rule are
exactly the `Reinsert`-related sequences. -/
inductive Reinsert (t f : List Str) : List Str → List Str → Prop where
  | nil : Reinsert t f [] []
  | keep {x post pre} : Reinsert t f post pre → Reinsert t f (x :: post) (x :: pre)
  | swap {post pre} : Reinsert t f post pre → Reinsert t f (t ++ post) (f ++ pre)

/-- The bitmask with the given little-endian bits. -/
def maskOf : List Bool → Nat
  | [] => 0
  | b :: bs => (if b then 1 else 0) + 2 * maskOf bs

/-- The occurrence positions of the (non-empty) target sequence in a
candidate, as computed by `reverseOneRule` for a context-free rule. -/
def ctxFreePos (tokens : List Str) (tt0 : Str) (tt1 : List Str) : List Nat :=
  (List.range (tokens.length + 1)).filter (fun i =>
    decide (i + (tt0 :: tt1).length ≤ tokens.length) &&
      seqMatchesAt tokens i (tt0 :: tt1) &&
      matchesContextForSequence tokens i (tt0 :: tt1).length none none)

/-! ## Specification predicates for the tokenizer (claim C6) -/

/-- `t` is the longest inventory token that is a prefix of the remaining
text `rem`. -/
def LongestTok (inv : List Str) (rem t : Str) : Prop :=
  t ∈ inv ∧ t.isPrefixOf rem = true ∧
    ∀ u ∈ inv, u.isPrefixOf rem = true → u.length ≤ t.length

/-- The declarative greedy-scan relation of claim C6: at each position the
longest inventory prefix is emitted; when no inventory token is a prefix
of the (non-empty) remainder, the scan fails carrying the number of
characters consumed so far — the first unmatched position. -/
inductive GreedyOut (inv : List Str) : Str → Except Nat (List Str) → Prop where
  | nil : GreedyOut inv [] (Except.ok [])
  | okStep {t rest ts} : t ≠ [] → LongestTok inv (t ++ rest) t →
      GreedyOut inv rest (Except.ok ts) → GreedyOut inv (t ++ rest) (Except.ok (t :: ts))
  | errStep {t rest p} : t ≠ [] → LongestTok inv (t ++ rest) t →
      GreedyOut inv rest (Except.error p) →
      GreedyOut inv (t ++ rest) (Except.error (t.length + p))
  | stuck {rem} : rem ≠ [] → (∀ u ∈ inv, u.isPrefixOf rem = false) →
      GreedyOut inv rem (Except.error 0)

/-- Shift a tokenization error position by `n` (ok results unchanged). -/
def errShift (n : Nat) : Except Nat (List Str) → Except Nat (List Str)
  | Except.error p => Except.error (n + p)
  | Except.ok ts => Except.ok ts

/-! ## Order lemmas for the two sorts -/

theorem lexLe_total (a b : Str) : lexLe a b = true ∨ lexLe b a = true := by
  induction a generalizing b with
  | nil => left; rfl
  | cons x xs ih =>
    cases b with
    | nil => right; rfl
    | cons y ys =>
      rcases lt_trichotomy x y with h | h | h
      · left; simp [lexLe, h]
      · subst h
        rcases ih ys with h2 | h2
        · left; simp [lexLe, lt_irrefl, h2]
        · right; simp [lexLe, lt_irrefl, h2]
      · right; simp [lexLe, h]

theorem lexLe_trans {a b c : Str} (h1 : lexLe a b = true) (h2 : lexLe b c = true) :
    lexLe a c = true := by
  induction a generalizing b c with
  | nil => rfl
  | cons x xs ih =>
    cases b with
    | nil => simp [lexLe] at h1
    | cons y ys =>
      cases c with
      | nil => simp [lexLe] at h2
      | cons z zs =>
        rcases lt_trichotomy x y with hxy | hxy | hxy
        · rcases lt_trichotomy y z with hyz | hyz | hyz
          · simp [lexLe, lt_trans hxy hyz]
          · subst hyz; simp [lexLe, hxy]
          · simp [lexLe, hyz, asymm hyz] at h2
        · subst hxy
          rcases lt_trichotomy x z with hyz | hyz | hyz
          · simp [lexLe, hyz]
          · subst hyz
            simp only [lexLe, lt_irrefl, if_false] at h1 h2 ⊢
            exact ih h1 h2
          · simp [lexLe, hyz, asymm hyz] at h2
        · simp [lexLe, hxy, asymm hxy] at h1

theorem mem_insLex {a x : Str} {l : List Str} :
    a ∈ insLex x l ↔ a = x ∨ a ∈ l := by
  induction l with
  | nil => simp [insLex]
  | cons y ys ih =>
    by_cases h : lexLe x y = true
    · simp [insLex, h]
    · simp [insLex, h, ih]; tauto

theorem mem_sortLex {a : Str} {l : List Str} : a ∈ sortLex l ↔ a ∈ l := by
  induction l with
  | nil => simp [sortLex]
  | cons x xs ih => simp [sortLex, mem_insLex, ih]

theorem pairwise_insLex {x : Str} {l : List Str}
    (h : l.Pairwise (fun a b => lexLe a b = true)) :
    (insLex x l).Pairwise (fun a b => lexLe a b = true) := by
  induction l with
  | nil => simp [insLex]
  | cons y ys ih =>
    rcases List.pairwise_cons.mp h with ⟨hy, hys⟩
    by_cases hxy : lexLe x y = true
    · have e : insLex x (y :: ys) = x :: y :: ys := by simp [insLex, hxy]
      rw [e]
      refine List.pairwise_cons.mpr ⟨?_, h⟩
      intro b hb
      rcases List.mem_cons.mp hb with rfl | hb
      · exact hxy
      · exact lexLe_trans hxy (hy b hb)
    · have e : insLex x (y :: ys) = y :: insLex x ys := by simp [insLex, hxy]
      rw [e]
      refine List.pairwise_cons.mpr ⟨?_, ih hys⟩
      intro b hb
      rcases mem_insLex.mp hb with hbx | hb
      · rcases lexLe_total x y with hx | hx
        · exact absurd hx hxy
        · exact hbx ▸ hx
      · exact hy b hb

theorem pairwise_sortLex (l : List Str) :
    (sortLex l).Pairwise (fun a b => lexLe a b = true) := by
  induction l with
  | nil => simp [sortLex]
  | cons x xs ih => exact pairwise_insLex ih

theorem mem_insLenDesc {a x : Str} {l : List Str} :
    a ∈ insLenDesc x l ↔ a = x ∨ a ∈ l := by
  induction l with
  | nil => simp [insLenDesc]
  | cons y ys ih =>
    by_cases h : y.length < x.length
    · simp [insLenDesc, h]
    · simp [insLenDesc, h, ih]; tauto

theorem mem_sortByLenDesc {a : Str} {l : List Str} :
    a ∈ sortByLenDesc l ↔ a ∈ l := by
  induction l with
  | nil => simp [sortByLenDesc]
  | cons x xs ih => simp [sortByLenDesc, mem_insLenDesc, ih]

theorem pairwise_insLenDesc {x : Str} {l : List Str}
    (h : l.Pairwise (fun a b => b.length ≤ a.length)) :
    (insLenDesc x l).Pairwise (fun a b => b.length ≤ a.length) := by
  induction l with
  | nil => simp [insLenDesc]
  | cons y ys ih =>
    rcases List.pairwise_cons.mp h with ⟨hy, hys⟩
    by_cases hxy : y.length < x.length
    · have e : insLenDesc x (y :: ys) = x :: y :: ys := by simp [insLenDesc, hxy]
      rw [e]
      refine List.pairwise_cons.mpr ⟨?_, h⟩
      intro b hb
      rcases List.mem_cons.mp hb with rfl | hb
      · exact le_of_lt hxy
      · exact le_trans (hy b hb) (le_of_lt hxy)
    · have e : insLenDesc x (y :: ys) = y :: insLenDesc x ys := by simp [insLenDesc, hxy]
      rw [e]
      refine List.pairwise_cons.mpr ⟨?_, ih hys⟩
      intro b hb
      rcases mem_insLenDesc.mp hb with rfl | hb
      · exact le_of_not_lt hxy
      · exact hy b hb

theorem pairwise_sortByLenDesc (l : List Str) :
    (sortByLenDesc l).Pairwise (fun a b => b.length ≤ a.length) := by
  induction l with
  | nil => simp [sortByLenDesc]
  | cons x xs ih => exact pairwise_insLenDesc ih

/-! ## Claims about the matcher and the reverser output -/

/-- C8: `matchesPhonotactics` with a non-null but empty pattern array
returns `false` for every token sequence — including the empty sequence —
whereas a `null` (here `none`) pattern argument returns `true`: an empty
pattern list rejects every word rather than being the unconstrained case. -/
theorem claimC8_empty_patterns_reject :
    (∀ tokens : List Str, matchesPhonotactics tokens (some []) = false) ∧
    matchesPhonotactics [] (some []) = false ∧
    (∀ tokens : List Str, matchesPhonotactics tokens none = true) :=
  ⟨fun _ => rfl, rfl, fun _ => rfl⟩

/-- C3: reversing `"ello"` under the single deletion rule `h > ∅;` with
source inventory `{h,e,l,o}` and target inventory `{e,l,o}` returns exactly
the six words `hello, ehllo, elhlo, ellho, elloh, ello` (here in the sorted
order the reverser emits). -/
theorem claimC3_deletion_reversal_complete :
    reverseRules (str "ello") [{ from_ := [str "h"], to_ := [] }]
      [str "h", str "e", str "l", str "o"] [str "e", str "l", str "o"] none none =
      some (Except.ok
        [str "ehllo", str "elhlo", str "ellho", str "ello", str "elloh", str "hello"]) :=
  rfl

/-- C9 counterexample: the output of `reverseRules` can contain duplicate
words.  With the rules `a b > x; ab > x;` and source inventory
`{a, b, ab}`, reversing `"x"` produces the candidate token sequences
`["a","b"]` and `["ab"]`, distinct under the `\x01` serialization but both
rendering the word `"ab"` — so the returned list is `["ab", "ab"]`,
which is not duplicate-free. -/
theorem claimC9_counterexample :
    reverseRules (str "x")
      [{ from_ := [str "a", str "b"], to_ := [str "x"] },
       { from_ := [str "ab"], to_ := [str "x"] }]
      [str "a", str "b", str "ab"] [str "x"] none none =
      some (Except.ok [str "ab", str "ab"]) ∧
    ¬ List.Nodup [str "ab", str "ab"] :=
  ⟨rfl, by decide⟩

/-- C9 (amended): every word list returned by `reverseRules` is sorted in
ascending lexicographic order (candidate token sequences are deduplicated
via the `\x01` serialization, but distinct token sequences may render the
same word, so the list may contain duplicate entries). -/
theorem claimC9_reverse_output_sorted (word : Str) (rules : List Rule)
    (src tgt : List Str) (pt1 pt2 : Option (List PhonotacticPattern))
    (l : List Str)
    (h : reverseRules word rules src tgt pt1 pt2 = some (Except.ok l)) :
    l.Pairwise (fun a b => lexLe a b = true) := by
  simp only [reverseRules, reverseWord] at h
  rcases htok : tokenizeWith word (sortByLenDesc tgt) with _ | e
  · rw [htok] at h; simp at h
  · rcases e with p | init
    · rw [htok] at h; simp at h
    · rw [htok] at h
      dsimp only at h
      rcases hc : collectResults (sortByLenDesc (expandedSourcePhonemes rules src)) pt1
          (List.foldl (reverseStep (expandedSourcePhonemes rules src))
            [serializeTokens init] rules.reverse) with _ | res
      · rw [hc] at h; exact absurd h (by simp)
      · rw [hc] at h
        simp only [Option.map_some'] at h
        have hres : Except.ok (sortLex res) = (Except.ok l : Except Nat (List Str)) :=
          Option.some.inj h
        have : sortLex res = l := by
          injection hres
        exact this ▸ pairwise_sortLex res

/-- Witness for C9 (amended) at a concrete input: reversing `"x"` with no
rules yields the sorted list `["x"]`. -/
theorem claimC9_reverse_output_sorted_witness :
    List.Pairwise (fun a b => lexLe a b = true) [str "x"] :=
  claimC9_reverse_output_sorted (str "x") [] [str "x"] [str "x"] none none
    [str "x"] rfl

/-! ## The forward pass realizes earliest-match splicing (C2) -/

theorem engineScan_of_le {tokens : List Str} {rule : Rule} {i : Nat}
    (h : tokens.length ≤ i) (fuel : Nat) : engineScan tokens rule fuel i = [] := by
  cases fuel with
  | zero => rfl
  | succ f => unfold engineScan; rw [dif_neg (by omega)]

theorem earliestMatch_of_le {tokens : List Str} {rule : Rule} {i : Nat}
    (h : tokens.length ≤ i) : earliestMatch tokens rule i = none := by
  unfold earliestMatch
  rw [show tokens.length - i = 0 by omega]
  rfl

theorem earliestMatch_here {tokens : List Str} {rule : Rule} {i : Nat}
    (h : i < tokens.length) (hm : engineMatchAt tokens rule i = true) :
    earliestMatch tokens rule i = some i := by
  unfold earliestMatch
  rw [show tokens.length - i = (tokens.length - (i + 1)) + 1 by omega]
  simp [List.range', List.find?, hm]

theorem earliestMatch_skip {tokens : List Str} {rule : Rule} {i : Nat}
    (h : i < tokens.length) (hm : engineMatchAt tokens rule i = false) :
    earliestMatch tokens rule i = earliestMatch tokens rule (i + 1) := by
  unfold earliestMatch
  rw [show tokens.length - i = (tokens.length - (i + 1)) + 1 by omega]
  simp [List.range', List.find?, hm]

theorem earliestMatch_bounds {tokens : List Str} {rule : Rule} {i j : Nat}
    (h : earliestMatch tokens rule i = some j) :
    i ≤ j ∧ j < tokens.length ∧ engineMatchAt tokens rule j = true := by
  unfold earliestMatch at h
  have hj := List.mem_range'_1.mp (List.mem_of_find?_eq_some h)
  exact ⟨hj.1, by omega, List.find?_some h⟩

theorem spliceGo_skip {tokens : List Str} {rule : Rule} {i : Nat}
    (h : i < tokens.length) (hm : engineMatchAt tokens rule i = false) (fuel : Nat) :
    spliceGo tokens rule fuel i = tokens.get ⟨i, h⟩ :: spliceGo tokens rule fuel (i + 1) := by
  cases fuel with
  | zero => simp only [spliceGo]; exact List.drop_eq_getElem_cons h
  | succ f =>
    unfold spliceGo
    rw [earliestMatch_skip h hm]
    rcases hEM : earliestMatch tokens rule (i + 1) with _ | j
    · exact List.drop_eq_getElem_cons h
    · have hb := earliestMatch_bounds hEM
      have hdrop : tokens.drop i = tokens.get ⟨i, h⟩ :: tokens.drop (i + 1) :=
        List.drop_eq_getElem_cons h
      dsimp only
      rw [hdrop, show j - i = (j - (i + 1)) + 1 by omega, List.take_succ_cons]
      simp

theorem engineScan_eq_spliceGo {tokens : List Str} {rule : Rule}
    (hfrom : rule.from_ ≠ []) :
    ∀ (fuel1 i fuel2 : Nat), tokens.length - i ≤ fuel1 →
      tokens.length - i < fuel2 →
      engineScan tokens rule fuel1 i = spliceGo tokens rule fuel2 i := by
  intro fuel1
  induction fuel1 with
  | zero =>
    intro i fuel2 h1 h2
    have hi : tokens.length ≤ i := by omega
    rw [engineScan_of_le hi]
    cases fuel2 with
    | zero => simp [spliceGo, List.drop_eq_nil_of_le hi]
    | succ f => simp [spliceGo, earliestMatch_of_le hi, List.drop_eq_nil_of_le hi]
  | succ f ih =>
    intro i fuel2 h1 h2
    by_cases hi : i < tokens.length
    · by_cases hm : engineMatchAt tokens rule i = true
      · have hflen : 0 < rule.from_.length := List.length_pos.mpr hfrom
        cases fuel2 with
        | zero => omega
        | succ f2 =>
          unfold engineScan
          rw [dif_pos hi, if_pos hm]
          unfold spliceGo
          rw [earliestMatch_here hi hm]
          simp only [Nat.sub_self, List.take_zero, List.nil_append]
          congr 1
          exact ih (i + rule.from_.length) f2 (by omega) (by omega)
      · have hm' : engineMatchAt tokens rule i = false := by
          simpa using hm
        unfold engineScan
        rw [dif_pos hi, if_neg (by simp [hm'])]
        rw [spliceGo_skip hi hm' fuel2]
        congr 1
        exact ih (i + 1) fuel2 (by omega) (by omega)
    · have hle : tokens.length ≤ i := by omega
      rw [engineScan_of_le hle]
      cases fuel2 with
      | zero => simp [spliceGo, List.drop_eq_nil_of_le hle]
      | succ f2 => simp [spliceGo, earliestMatch_of_le hle, List.drop_eq_nil_of_le hle]

/-- C2: for every token sequence and every rule with non-empty `from` (the
invariant of compiled rules), one forward pass of the engine equals the
earliest-match splicing pass: scan left to right for the earliest index
where the full (possibly multi-token) `from` sequence matches contiguously
and the `leftContext`/`rightContext` check holds (a `["#"]` context
matching only the start/end of the whole sequence), splice in `to`
(possibly empty) and resume past the replacement, otherwise advance by one
token — so every non-overlapping contiguous occurrence is replaced in a
single pass. -/
theorem claimC2_forward_pass_is_earliest_splice (tokens : List Str) (rule : Rule)
    (hfrom : rule.from_ ≠ []) :
    applyRuleToTokens tokens rule = earliestSplicePass tokens rule :=
  engineScan_eq_spliceGo hfrom tokens.length 0 (tokens.length + 1)
    (by omega) (by omega)

/-- Witness for C2 at a concrete input: the two-token rule `a b > z`
replaces both non-overlapping occurrences of `a b` in `a b c a b` in a
single pass, and the scan agrees with the earliest-match splice. -/
theorem claimC2_forward_pass_is_earliest_splice_witness :
    ([str "a", str "b"] : List Str) ≠ [] ∧
    applyRuleToTokens [str "a", str "b", str "c", str "a", str "b"]
        { from_ := [str "a", str "b"], to_ := [str "z"] } =
      earliestSplicePass [str "a", str "b", str "c", str "a", str "b"]
        { from_ := [str "a", str "b"], to_ := [str "z"] } ∧
    applyRuleToTokens [str "a", str "b", str "c", str "a", str "b"]
        { from_ := [str "a", str "b"], to_ := [str "z"] } =
      [str "z", str "c", str "z"] :=
  ⟨by decide,
   claimC2_forward_pass_is_earliest_splice _ _ (by decide),
   by decide⟩

/-! ## The empty word is safe end to end (C10) -/

theorem applyRuleToTokens_nil (rule : Rule) : applyRuleToTokens [] rule = [] := rfl

theorem applyTokens_nil (rules : List Rule) : applyTokens rules [] = [] := by
  induction rules with
  | nil => rfl
  | cons r rs ih =>
    unfold applyTokens at ih ⊢
    simpa [applyRuleToTokens_nil] using ih

/-- C10: tokenizing the empty string succeeds with the empty token sequence
for every inventory (the unmatched-character branch is unreachable);
consequently `applyRules` on the empty word returns the empty word for
every rule list, and reversing the empty word never raises a tokenization
error. -/
theorem claimC10_empty_word_safe :
    (∀ inv : List Str, tokenize [] inv = some (Except.ok [])) ∧
    (∀ (rules : List Rule) (src tgt : List Str),
      applyRules [] rules src tgt = some (Except.ok [])) ∧
    (∀ (rules : List Rule) (src tgt : List Str)
      (pt1 pt2 : Option (List PhonotacticPattern)) (p : Nat),
      reverseRules [] rules src tgt pt1 pt2 ≠ some (Except.error p)) := by
  refine ⟨fun _ => rfl, ?_, ?_⟩
  · intro rules src tgt
    unfold applyRules
    rw [show tokenize [] src = some (Except.ok []) from rfl]
    simp [Except.map, applyTokens_nil]
  · intro rules src tgt pt1 pt2 p
    simp only [reverseRules, reverseWord]
    rw [show tokenizeWith [] (sortByLenDesc tgt) = some (Except.ok []) from rfl]
    dsimp only
    rcases hc : collectResults (sortByLenDesc (expandedSourcePhonemes rules src)) pt1
        (List.foldl (reverseStep (expandedSourcePhonemes rules src))
          [serializeTokens []] rules.reverse) with _ | res
    · simp [hc]
    · simp [hc]

/-! ## Rule compiler claims (C4, C5, C7) -/

/-- C4: compiling `[a b] > [x y] / [c d] _;` yields exactly 4 concrete
rules — the paired mappings `a>x` and `b>y`, each combined with left
contexts `c` and `d` — and no right context on any of them. -/
theorem claimC4_cartesian_expansion :
    parseRules (str "[a b] > [x y] / [c d] _;") =
      Except.ok
        [{ from_ := [str "a"], to_ := [str "x"], leftContext := some [str "c"] },
         { from_ := [str "a"], to_ := [str "x"], leftContext := some [str "d"] },
         { from_ := [str "b"], to_ := [str "y"], leftContext := some [str "c"] },
         { from_ := [str "b"], to_ := [str "y"], leftContext := some [str "d"] }] :=
  rfl

/-- C5 (the code, at the claim's failing input): `parseRules` accepts a
rule line whose only left-context content is a class containing the empty
marker `_` — no vacuous-context `CompileError` exists in `parser.ts`.  The
line `a > b / [d e _] _;` compiles without error into three rules, the
third carrying the literal token `_` as its left context (the
empty-marker expansion documented in `CLAUDE.md` is not implemented). -/
theorem claimC5_no_vacuous_context_error :
    parseRules (str "a > b / [d e _] _;") =
      Except.ok
        [{ from_ := [str "a"], to_ := [str "b"], leftContext := some [str "d"] },
         { from_ := [str "a"], to_ := [str "b"], leftContext := some [str "e"] },
         { from_ := [str "a"], to_ := [str "b"], leftContext := some [str "_"] }] :=
  rfl

/-- C7: compiling the mutually referential definitions `A = B; B = A;`
fails with a circular-reference error naming the participant `A`, and no
rule list is returned. -/
theorem claimC7_circular_variables :
    parseRules (str "A = B;\nB = A;") =
      Except.error (str "Circular reference in variable: A") :=
  rfl

/-! ## Greedy tokenizer characterization (C6) -/

theorem isPrefixOf_iff_append {l r : Str} :
    l.isPrefixOf r = true ↔ ∃ s, l ++ s = r := by
  induction l generalizing r with
  | nil => simp [List.isPrefixOf]
  | cons x xs ih =>
    cases r with
    | nil => simp [List.isPrefixOf]
    | cons y ys =>
      simp only [List.isPrefixOf, Bool.and_eq_true, beq_iff_eq, ih, List.cons_append,
        List.cons.injEq]
      constructor
      · rintro ⟨rfl, s, rfl⟩; exact ⟨s, rfl, rfl⟩
      · rintro ⟨s, rfl, rfl⟩; exact ⟨rfl, s, rfl⟩

theorem pfx_len_le {l r : Str} (h : l.isPrefixOf r = true) : l.length ≤ r.length := by
  rcases isPrefixOf_iff_append.mp h with ⟨s, rfl⟩
  simp

theorem pfx_unique {l1 l2 r : Str} (h1 : l1.isPrefixOf r = true)
    (h2 : l2.isPrefixOf r = true) (hlen : l1.length = l2.length) : l1 = l2 := by
  rcases isPrefixOf_iff_append.mp h1 with ⟨s1, rfl⟩
  rcases isPrefixOf_iff_append.mp h2 with ⟨s2, h⟩
  exact (List.append_inj h hlen.symm).1.symm

theorem find?_longest {s : List Str}
    (hs : s.Pairwise (fun a b => b.length ≤ a.length)) {rem t : Str}
    (h : s.find? (fun p => p.isPrefixOf rem) = some t) :
    ∀ u ∈ s, u.isPrefixOf rem = true → u.length ≤ t.length := by
  induction s with
  | nil => simp at h
  | cons x xs ih =>
    rcases List.pairwise_cons.mp hs with ⟨hx, hxs⟩
    by_cases hpx : x.isPrefixOf rem = true
    · simp only [List.find?, hpx] at h
      obtain rfl : x = t := by injection h
      intro u hu _
      rcases List.mem_cons.mp hu with rfl | hu
      · exact le_refl _
      · exact hx u hu
    · have hpx' : x.isPrefixOf rem = false := Bool.eq_false_iff.mpr hpx
      simp only [List.find?, hpx'] at h
      intro u hu hpu
      rcases List.mem_cons.mp hu with rfl | hu
      · exact absurd hpu hpx
      · exact ih hxs h u hu hpu

theorem firstMatch_some_iff {inv : List Str} {rem t : Str} :
    firstMatch (sortByLenDesc inv) rem = some t ↔ LongestTok inv rem t := by
  constructor
  · intro h
    have h2 : List.find? (fun p => p.isPrefixOf rem) (sortByLenDesc inv) = some t := h
    have hp : t.isPrefixOf rem = true := by
      have := List.find?_some h2
      simpa using this
    refine ⟨mem_sortByLenDesc.mp (List.mem_of_find?_eq_some h2), hp, ?_⟩
    intro u hu hpu
    exact find?_longest (pairwise_sortByLenDesc inv) h2 u (mem_sortByLenDesc.mpr hu) hpu
  · rintro ⟨hmem, hpfx, hlong⟩
    rcases h' : firstMatch (sortByLenDesc inv) rem with _ | t'
    · have h2 : List.find? (fun p => p.isPrefixOf rem) (sortByLenDesc inv) = none := h'
      exact absurd hpfx (by
        simpa using List.find?_eq_none.mp h2 t (mem_sortByLenDesc.mpr hmem))
    · have h2 : List.find? (fun p => p.isPrefixOf rem) (sortByLenDesc inv) = some t' := h'
      have hp' : t'.isPrefixOf rem = true := by
        have := List.find?_some h2
        simpa using this
      have ht' : LongestTok inv rem t' :=
        ⟨mem_sortByLenDesc.mp (List.mem_of_find?_eq_some h2), hp',
          fun u hu hpu =>
            find?_longest (pairwise_sortByLenDesc inv) h2 u (mem_sortByLenDesc.mpr hu) hpu⟩
      have : t = t' :=
        pfx_unique hpfx ht'.2.1
          (le_antisymm (ht'.2.2 t hmem hpfx) (hlong t' ht'.1 ht'.2.1))
      rw [this]

theorem firstMatch_none_iff {inv : List Str} {rem : Str} :
    firstMatch (sortByLenDesc inv) rem = none ↔
      ∀ u ∈ inv, u.isPrefixOf rem = false := by
  rw [firstMatch, List.find?_eq_none]
  constructor
  · intro h u hu
    exact Bool.eq_false_iff.mpr (h u (mem_sortByLenDesc.mpr hu))
  · intro h u hu
    exact Bool.eq_false_iff.mp (h u (mem_sortByLenDesc.mp hu))

theorem tokenizeGo_step_none {sorted : List Str} {c : Char} {rest : Str} {f pos : Nat}
    (h : firstMatch sorted (c :: rest) = none) :
    tokenizeGo sorted (f + 1) pos (c :: rest) = some (Except.error pos) := by
  simp only [tokenizeGo, h]

theorem tokenizeGo_step_empty {sorted : List Str} {c : Char} {rest : Str} {f pos : Nat}
    (h : firstMatch sorted (c :: rest) = some []) :
    tokenizeGo sorted (f + 1) pos (c :: rest) = none := by
  simp only [tokenizeGo, h]

theorem tokenizeGo_step_cons {sorted : List Str} {c : Char} {rest : Str} {f pos : Nat}
    {t0 : Char} {t1 : Str} (h : firstMatch sorted (c :: rest) = some (t0 :: t1)) :
    tokenizeGo sorted (f + 1) pos (c :: rest) =
      (tokenizeGo sorted f (pos + (t0 :: t1).length)
          ((c :: rest).drop (t0 :: t1).length)).map
        (fun r => r.map (fun ts => (t0 :: t1) :: ts)) := by
  simp only [tokenizeGo, h]

theorem tokenizeGo_shift (sorted : List Str) :
    ∀ (fuel pos : Nat) (rem : Str),
      tokenizeGo sorted fuel pos rem = (tokenizeGo sorted fuel 0 rem).map (errShift pos) := by
  intro fuel
  induction fuel with
  | zero =>
    intro pos rem
    cases rem with
    | nil => rfl
    | cons c rest => rfl
  | succ f ih =>
    intro pos rem
    cases rem with
    | nil => rfl
    | cons c rest =>
      rcases hFM : firstMatch sorted (c :: rest) with _ | t
      · rw [tokenizeGo_step_none hFM, tokenizeGo_step_none hFM]
        simp [errShift]
      · cases t with
        | nil => rw [tokenizeGo_step_empty hFM, tokenizeGo_step_empty hFM]; rfl
        | cons t0 t1 =>
          rw [tokenizeGo_step_cons hFM, tokenizeGo_step_cons hFM]
          rw [ih (pos + (t0 :: t1).length), ih (0 + (t0 :: t1).length)]
          rcases tokenizeGo sorted f 0 ((c :: rest).drop (t0 :: t1).length) with _ | r
          · rfl
          · rcases r with p | ts
            · simp only [Option.map_some', errShift, Except.map]
              simp only [Nat.zero_add, Nat.add_assoc]
            · rfl

theorem tokenizeGo_total {inv : List Str} (hne : ∀ u ∈ inv, u ≠ []) :
    ∀ (fuel pos : Nat) (rem : Str), rem.length ≤ fuel →
      ∃ r, tokenizeGo (sortByLenDesc inv) fuel pos rem = some r := by
  intro fuel
  induction fuel with
  | zero =>
    intro pos rem h
    cases rem with
    | nil => exact ⟨Except.ok [], rfl⟩
    | cons c rest => simp at h
  | succ f ih =>
    intro pos rem h
    cases rem with
    | nil => exact ⟨Except.ok [], rfl⟩
    | cons c rest =>
      rcases hFM : firstMatch (sortByLenDesc inv) (c :: rest) with _ | t
      · exact ⟨Except.error pos, tokenizeGo_step_none hFM⟩
      · have htne : t ≠ [] :=
          hne t (mem_sortByLenDesc.mp (List.mem_of_find?_eq_some hFM))
        cases t with
        | nil => exact absurd rfl htne
        | cons t0 t1 =>
          obtain ⟨r', hr'⟩ := ih (pos + (t0 :: t1).length)
            ((c :: rest).drop (t0 :: t1).length)
            (by simp only [List.length_drop, List.length_cons] at h ⊢; omega)
          refine ⟨r'.map (fun ts => (t0 :: t1) :: ts), ?_⟩
          rw [tokenizeGo_step_cons hFM, hr']
          rfl

theorem tokenizeGo_ok_flatten {sorted : List Str} :
    ∀ (fuel pos : Nat) (rem : Str) (ts : List Str),
      tokenizeGo sorted fuel pos rem = some (Except.ok ts) → ts.flatten = rem := by
  intro fuel
  induction fuel with
  | zero =>
    intro pos rem ts h
    cases rem with
    | nil => cases h; rfl
    | cons c rest => cases h
  | succ f ih =>
    intro pos rem ts h
    cases rem with
    | nil => cases h; rfl
    | cons c rest =>
      rcases hFM : firstMatch sorted (c :: rest) with _ | t
      · rw [tokenizeGo_step_none hFM] at h; cases h
      · cases t with
        | nil => rw [tokenizeGo_step_empty hFM] at h; cases h
        | cons t0 t1 =>
          rw [tokenizeGo_step_cons hFM] at h
          rcases hIn : tokenizeGo sorted f (pos + (t0 :: t1).length)
              ((c :: rest).drop (t0 :: t1).length) with _ | r
          · rw [hIn] at h; cases h
          · rw [hIn] at h
            rcases r with p | ts'
            · cases h
            · have hts : ts = (t0 :: t1) :: ts' := by
                have h2 := Option.some.inj h
                simp only [Except.map] at h2
                exact (Except.ok.inj h2).symm
              subst hts
              have hp : (t0 :: t1).isPrefixOf (c :: rest) = true := by
                have h2 : List.find? (fun p => p.isPrefixOf (c :: rest)) sorted =
                    some (t0 :: t1) := hFM
                have := List.find?_some h2
                simpa using this
              rcases isPrefixOf_iff_append.mp hp with ⟨s, hs⟩
              have hdrop : (c :: rest).drop (t0 :: t1).length = s := by
                rw [← hs]
                simpa using List.drop_append (t0 :: t1) s 0
              rw [hdrop] at hIn
              have := ih _ _ _ hIn
              simp only [List.flatten_cons, this, hs]

theorem tokenizeGo_ok_mem {sorted : List Str} :
    ∀ (fuel pos : Nat) (rem : Str) (ts : List Str),
      tokenizeGo sorted fuel pos rem = some (Except.ok ts) →
      ∀ tok ∈ ts, tok ∈ sorted := by
  intro fuel
  induction fuel with
  | zero =>
    intro pos rem ts h
    cases rem with
    | nil => cases h; simp
    | cons c rest => cases h
  | succ f ih =>
    intro pos rem ts h
    cases rem with
    | nil => cases h; simp
    | cons c rest =>
      rcases hFM : firstMatch sorted (c :: rest) with _ | t
      · rw [tokenizeGo_step_none hFM] at h; cases h
      · cases t with
        | nil => rw [tokenizeGo_step_empty hFM] at h; cases h
        | cons t0 t1 =>
          rw [tokenizeGo_step_cons hFM] at h
          rcases hIn : tokenizeGo sorted f (pos + (t0 :: t1).length)
              ((c :: rest).drop (t0 :: t1).length) with _ | r
          · rw [hIn] at h; cases h
          · rw [hIn] at h
            rcases r with p | ts'
            · cases h
            · have hts : ts = (t0 :: t1) :: ts' := by
                have h2 := Option.some.inj h
                simp only [Except.map] at h2
                exact (Except.ok.inj h2).symm
              subst hts
              intro tok htok
              rcases List.mem_cons.mp htok with rfl | htok
              · exact List.mem_of_find?_eq_some hFM
              · exact ih _ _ _ hIn tok htok

theorem tokenizeGo_greedy {inv : List Str} :
    ∀ (fuel : Nat) (rem : Str) (r : Except Nat (List Str)), rem.length ≤ fuel →
      tokenizeGo (sortByLenDesc inv) fuel 0 rem = some r → GreedyOut inv rem r := by
  intro fuel
  induction fuel with
  | zero =>
    intro rem r h hr
    cases rem with
    | nil => cases hr; exact GreedyOut.nil
    | cons c rest => simp at h
  | succ f ih =>
    intro rem r h hr
    cases rem with
    | nil => cases hr; exact GreedyOut.nil
    | cons c rest =>
      rcases hFM : firstMatch (sortByLenDesc inv) (c :: rest) with _ | t
      · rw [tokenizeGo_step_none hFM] at hr
        cases hr
        exact GreedyOut.stuck (by simp) (firstMatch_none_iff.mp hFM)
      · cases t with
        | nil => rw [tokenizeGo_step_empty hFM] at hr; cases hr
        | cons t0 t1 =>
          have hlong : LongestTok inv (c :: rest) (t0 :: t1) :=
            firstMatch_some_iff.mp hFM
          rcases isPrefixOf_iff_append.mp hlong.2.1 with ⟨s, hs⟩
          have hdrop : (c :: rest).drop (t0 :: t1).length = s := by
            rw [← hs]
            simpa using List.drop_append (t0 :: t1) s 0
          rw [tokenizeGo_step_cons hFM, hdrop, tokenizeGo_shift] at hr
          rcases hIn : tokenizeGo (sortByLenDesc inv) f 0 s with _ | r'
          · rw [hIn] at hr; cases hr
          · rw [hIn] at hr
            have hslen : s.length ≤ f := by
              have hlen : (t0 :: t1).length + s.length = (c :: rest).length := by
                rw [← hs, List.length_append]
              simp only [List.length_cons] at hlen h
              omega
            have hg := ih s r' hslen hIn
            rcases r' with p | ts
            · have hr' : r = Except.error ((t0 :: t1).length + p) := by
                have := (Option.some.inj hr).symm
                simp only [errShift, Except.map] at this
                rw [this]
                have : 0 + ((t0 :: t1).length + p) = (t0 :: t1).length + p := by omega
                simp [this]
              rw [hr', ← hs]
              exact GreedyOut.errStep (by simp) (hs ▸ hlong) hg
            · have hr' : r = Except.ok ((t0 :: t1) :: ts) := by
                have := (Option.some.inj hr).symm
                simp only [errShift, Except.map] at this
                rw [this]
              rw [hr', ← hs]
              exact GreedyOut.okStep (by simp) (hs ▸ hlong) hg

theorem greedy_facts {inv : List Str} {w : Str} {r : Except Nat (List Str)}
    (h : GreedyOut inv w r) :
    (∀ ts, r = Except.ok ts → ts.flatten = w) ∧
    (∀ p, r = Except.error p →
      p ≤ w.length ∧ w.drop p ≠ [] ∧ ∀ u ∈ inv, u.isPrefixOf (w.drop p) = false) := by
  induction h with
  | nil =>
    refine ⟨?_, ?_⟩
    · intro ts hts; cases hts; rfl
    · intro p hp; cases hp
  | okStep htne hl hrec ih =>
    refine ⟨?_, ?_⟩
    · intro ts' hts'
      cases hts'
      simp [ih.1 _ rfl]
    · intro p hp; cases hp
  | errStep htne hl hrec ih =>
    refine ⟨?_, ?_⟩
    · intro ts hts; cases hts
    · rename_i t rest p0
      intro p hp
      cases hp
      obtain ⟨h1, h2, h3⟩ := ih.2 p0 rfl
      have hdrop : (t ++ rest).drop (t.length + p0) = rest.drop p0 :=
        List.drop_append p0
      refine ⟨by simp; omega, by rw [hdrop]; exact h2, ?_⟩
      intro u hu
      rw [hdrop]
      exact h3 u hu
  | stuck hne hnone =>
    refine ⟨?_, ?_⟩
    · intro ts hts; cases hts
    · intro p hp
      cases hp
      exact ⟨Nat.zero_le _, by simpa using hne, by simpa using hnone⟩

/-- C6 (amended): for every word and every inventory without the empty
token, tokenization terminates with either a token list produced by the
greedy longest-prefix scan (`GreedyOut`), whose concatenation is the input
word, or an error identifying the first unmatched character position —
the consumed length `p`, at which no inventory token is a prefix of the
non-empty remainder.  (With the empty string in the inventory the source's
scan loop never terminates, so the dichotomy as originally stated fails.) -/
theorem claimC6_greedy_tokenizer (w : Str) (inv : List Str)
    (hne : ∀ u ∈ inv, u ≠ []) :
    ∃ r, tokenize w inv = some r ∧ GreedyOut inv w r ∧
      (∀ ts, r = Except.ok ts → ts.flatten = w) ∧
      (∀ p, r = Except.error p →
        p ≤ w.length ∧ w.drop p ≠ [] ∧ ∀ u ∈ inv, u.isPrefixOf (w.drop p) = false) := by
  obtain ⟨r, hr⟩ := tokenizeGo_total hne w.length 0 w le_rfl
  have hg := tokenizeGo_greedy w.length w r le_rfl hr
  exact ⟨r, hr, hg, (greedy_facts hg).1, (greedy_facts hg).2⟩

/-- Witness for C6 (amended) at a concrete input: tokenizing `"aba"` with
inventory `{ab, a}` picks the longest prefix `ab` first. -/
theorem claimC6_greedy_tokenizer_witness :
    (∀ u ∈ [str "ab", str "a"], u ≠ ([] : Str)) ∧
    ∃ r, tokenize (str "aba") [str "ab", str "a"] = some r ∧
      GreedyOut [str "ab", str "a"] (str "aba") r ∧
      (∀ ts, r = Except.ok ts → ts.flatten = str "aba") ∧
      (∀ p, r = Except.error p →
        p ≤ (str "aba").length ∧ (str "aba").drop p ≠ [] ∧
          ∀ u ∈ [str "ab", str "a"], u.isPrefixOf ((str "aba").drop p) = false) :=
  ⟨by decide, claimC6_greedy_tokenizer (str "aba") [str "ab", str "a"] (by decide)⟩

/-- C6 counterexample: with the empty string in the inventory the
tokenizer diverges (the source's `while` loop matches the empty phoneme
and never advances), modelled by `none`: tokenizing `"a"` against `[""]`
neither returns tokens nor raises the positional error, refuting the
claim's "for every inventory" dichotomy. -/
theorem claimC6_counterexample :
    tokenize (str "a") [[]] = none ∧ ¬ ∃ r, tokenize (str "a") [[]] = some r := by
  refine ⟨rfl, ?_⟩
  rintro ⟨r, hr⟩
  rw [show tokenize (str "a") [[]] = none from rfl] at hr
  exact Option.noConfusion hr

/-! ## Context-free passes: the engine pass as structural replacement -/

theorem isPrefixOfG_iff {α} [BEq α] [LawfulBEq α] {l r : List α} :
    l.isPrefixOf r = true ↔ ∃ s, l ++ s = r := by
  induction l generalizing r with
  | nil => simp [List.isPrefixOf]
  | cons x xs ih =>
    cases r with
    | nil => simp [List.isPrefixOf]
    | cons y ys =>
      simp only [List.isPrefixOf, Bool.and_eq_true, beq_iff_eq, ih, List.cons_append,
        List.cons.injEq]
      constructor
      · rintro ⟨rfl, s, rfl⟩; exact ⟨s, rfl, rfl⟩
      · rintro ⟨s, rfl, rfl⟩; exact ⟨rfl, s, rfl⟩

theorem isPrefixOf_iff_get {α} [BEq α] [LawfulBEq α] {pat l : List α} :
    pat.isPrefixOf l = true ↔ ∀ j, j < pat.length → l.get? j = pat.get? j := by
  induction pat generalizing l with
  | nil => simp [List.isPrefixOf]
  | cons p ps ih =>
    cases l with
    | nil =>
      apply iff_of_false
      · simp [List.isPrefixOf]
      · intro hall
        have := hall 0 (by simp)
        simp at this
    | cons y ys =>
      simp only [List.isPrefixOf, Bool.and_eq_true, beq_iff_eq, ih]
      constructor
      · rintro ⟨rfl, hrest⟩ j hj
        cases j with
        | zero => rfl
        | succ j' => exact hrest j' (Nat.lt_of_succ_lt_succ hj)
      · intro hall
        constructor
        · have := hall 0 (Nat.succ_pos _)
          simp only [List.get?] at this
          exact (Option.some.inj this).symm
        · intro j hj
          exact hall (j + 1) (Nat.succ_lt_succ hj)

theorem get?_drop' {α} (l : List α) (i j : Nat) :
    (l.drop i).get? j = l.get? (i + j) := by
  simp [List.get?_eq_getElem?, List.getElem?_drop]

theorem seqMatchesAt_iff {tokens : List Str} {i : Nat} {pat : List Str} :
    seqMatchesAt tokens i pat = true ↔ pat.isPrefixOf (tokens.drop i) = true := by
  rw [isPrefixOf_iff_get, seqMatchesAt, List.all_eq_true]
  constructor
  · intro h j hj
    have := h j (List.mem_range.mpr hj)
    have heq : tokens.get? (i + j) = pat.get? j := by simpa using this
    rw [get?_drop', heq]
  · intro h j hj
    have hj' := List.mem_range.mp hj
    have := h j hj'
    rw [get?_drop'] at this
    simpa [List.get?_eq_getElem?] using this

theorem ctxFree_true (tokens : List Str) (i s : Nat) :
    matchesContextForSequence tokens i s none none = true := rfl

theorem engineMatchAt_ctxFree {tokens : List Str} {f0 : Str} {frest to_ : List Str}
    {i : Nat} :
    engineMatchAt tokens { from_ := f0 :: frest, to_ := to_ } i =
      (f0 :: frest).isPrefixOf (tokens.drop i) := by
  cases h : (f0 :: frest).isPrefixOf (tokens.drop i) with
  | true =>
    simp [engineMatchAt, ctxFree_true, seqMatchesAt_iff.mpr h]
  | false =>
    have hsm : seqMatchesAt tokens i (f0 :: frest) = false := by
      rcases hb : seqMatchesAt tokens i (f0 :: frest) with _ | _
      · rfl
      · rw [seqMatchesAt_iff.mp hb] at h; cases h
    simp [engineMatchAt, hsm]

theorem engineScan_eq_plainPass {tokens : List Str} {f0 : Str} {frest to_ : List Str} :
    ∀ (fuel i : Nat), tokens.length - i ≤ fuel →
      engineScan tokens { from_ := f0 :: frest, to_ := to_ } fuel i =
        plainPass f0 frest to_ (tokens.drop i) := by
  intro fuel
  induction fuel with
  | zero =>
    intro i h
    have hle : tokens.length ≤ i := by omega
    rw [List.drop_eq_nil_of_le hle]
    simp [engineScan, plainPass]
  | succ f ih =>
    intro i h
    by_cases hi : i < tokens.length
    · have hdrop : tokens.drop i = tokens.get ⟨i, hi⟩ :: tokens.drop (i + 1) :=
        List.drop_eq_getElem_cons hi
      unfold engineScan
      rw [dif_pos hi]
      by_cases hm : (f0 :: frest).isPrefixOf (tokens.drop i) = true
      · rw [if_pos (by rw [engineMatchAt_ctxFree]; exact hm)]
        rw [hdrop, plainPass, if_pos (hdrop ▸ hm)]
        congr 1
        rw [List.drop_drop]
        have hIH := ih (i + (frest.length + 1)) (by omega)
        have e1 : ({ from_ := f0 :: frest, to_ := to_ } : Rule).from_.length =
            frest.length + 1 := by simp
        rw [e1, hIH, show i + (frest.length + 1) = i + 1 + frest.length from by omega]
      · rw [if_neg (by rw [engineMatchAt_ctxFree]; simpa using hm)]
        rw [hdrop, plainPass, if_neg (by rw [← hdrop]; simpa using hm)]
        congr 1
        exact ih (i + 1) (by omega)
    · have hle : tokens.length ≤ i := by omega
      rw [List.drop_eq_nil_of_le hle]
      unfold engineScan
      rw [dif_neg (by omega)]
      simp [plainPass]

theorem applyRule_eq_plainPass {tokens : List Str} {rule : Rule} {f0 : Str}
    {frest : List Str} (hf : rule.from_ = f0 :: frest)
    (hlc : rule.leftContext = none) (hrc : rule.rightContext = none) :
    applyRuleToTokens tokens rule = plainPass f0 frest rule.to_ tokens := by
  have hrule : rule = { from_ := f0 :: frest, to_ := rule.to_ } := by
    cases rule
    simp_all
  rw [hrule]
  have := @engineScan_eq_plainPass tokens f0 frest rule.to_ tokens.length 0 (by omega)
  simpa [applyRuleToTokens] using this

theorem plainPass_reinsert {f0 : Str} {frest t : List Str} :
    ∀ (n : Nat) (l : List Str), l.length ≤ n →
      Reinsert t (f0 :: frest) (plainPass f0 frest t l) l := by
  intro n
  induction n with
  | zero =>
    intro l h
    have : l = [] := List.eq_nil_of_length_eq_zero (by omega)
    subst this
    simp only [plainPass]
    exact Reinsert.nil
  | succ n ih =>
    intro l h
    cases l with
    | nil =>
      simp only [plainPass]
      exact Reinsert.nil
    | cons x xs =>
      by_cases hp : (f0 :: frest).isPrefixOf (x :: xs) = true
      · rcases isPrefixOfG_iff.mp hp with ⟨s, hs⟩
        have hsdrop : xs.drop frest.length = s := by
          have : (x :: xs).drop (f0 :: frest).length = s := by
            rw [← hs]
            simpa using List.drop_append (f0 :: frest) s 0
          simpa using this
        rw [plainPass, if_pos hp, hsdrop, ← hs]
        exact Reinsert.swap (ih s (by
          have := congrArg List.length hs
          simp only [List.length_append, List.length_cons] at this h
          omega))
      · rw [plainPass, if_neg (by simpa using hp)]
        exact Reinsert.keep (ih xs (by simp only [List.length_cons] at h; omega))

theorem plainPass_tokens_subset {f0 : Str} {frest t : List Str} :
    ∀ (n : Nat) (l : List Str), l.length ≤ n →
      ∀ x ∈ plainPass f0 frest t l, x ∈ t ∨ x ∈ l := by
  intro n
  induction n with
  | zero =>
    intro l h
    have : l = [] := List.eq_nil_of_length_eq_zero (by omega)
    subst this
    simp [plainPass]
  | succ n ih =>
    intro l h x hx
    cases l with
    | nil => simp [plainPass] at hx
    | cons y ys =>
      by_cases hp : (f0 :: frest).isPrefixOf (y :: ys) = true
      · rw [plainPass, if_pos hp] at hx
        rcases List.mem_append.mp hx with hx | hx
        · exact Or.inl hx
        · rcases ih (ys.drop frest.length) (by
              have := List.length_drop frest.length ys
              simp only [List.length_cons] at h
              omega) x hx with hx | hx
          · exact Or.inl hx
          · exact Or.inr (List.mem_cons.mpr (Or.inr (List.mem_of_mem_drop hx)))
      · rw [plainPass, if_neg (by simpa using hp)] at hx
        rcases List.mem_cons.mp hx with rfl | hx
        · exact Or.inr (List.mem_cons_self _ _)
        · rcases ih ys (by simp only [List.length_cons] at h; omega) x hx with hx | hx
          · exact Or.inl hx
          · exact Or.inr (List.mem_cons.mpr (Or.inr hx))

/-! ## Completeness of the bitmask reconstruction (claim C1) -/

theorem pfxG_len_le {α} [BEq α] [LawfulBEq α] {l r : List α}
    (h : l.isPrefixOf r = true) : l.length ≤ r.length := by
  rcases isPrefixOfG_iff.mp h with ⟨s, hs⟩
  rw [← hs]
  simp

theorem mem_ctxFreePos {tokens : List Str} {tt0 : Str} {tt1 : List Str} {i : Nat} :
    i ∈ ctxFreePos tokens tt0 tt1 ↔
      i ≤ tokens.length ∧ (tt0 :: tt1).isPrefixOf (tokens.drop i) = true := by
  unfold ctxFreePos
  rw [List.mem_filter, List.mem_range]
  constructor
  · rintro ⟨hr, hc⟩
    simp only [Bool.and_eq_true, decide_eq_true_eq] at hc
    exact ⟨by omega, seqMatchesAt_iff.mp hc.1.2⟩
  · rintro ⟨hi, hp⟩
    have hlen : (tt0 :: tt1).length ≤ tokens.length - i := by
      have := pfxG_len_le hp
      simpa using this
    refine ⟨by omega, ?_⟩
    simp only [Bool.and_eq_true, decide_eq_true_eq]
    exact ⟨⟨by omega, seqMatchesAt_iff.mpr hp⟩, by rw [ctxFree_true]⟩

theorem idxIn_get {l : List Nat} {i k : Nat} (h : idxIn l i = some k) :
    l.get? k = some i := by
  induction l generalizing k with
  | nil => cases h
  | cons p ps ih =>
    by_cases hpi : (p == i) = true
    · rw [idxIn, if_pos hpi] at h
      cases h
      have hp : p = i := by simpa using hpi
      simp [List.get?, hp]
    · rw [idxIn, if_neg hpi] at h
      rcases hk : idxIn ps i with _ | k'
      · rw [hk] at h; cases h
      · rw [hk] at h
        have hkk : k = k' + 1 := by simpa using (Option.some.inj h).symm
        subst hkk
        simpa [List.get?] using ih hk

theorem idxIn_of_mem {l : List Nat} {i : Nat} (h : i ∈ l) :
    ∃ k, idxIn l i = some k := by
  induction l with
  | nil => cases h
  | cons p ps ih =>
    by_cases hpi : (p == i) = true
    · exact ⟨0, by rw [idxIn, if_pos hpi]⟩
    · have hi : i ∈ ps := by
        rcases List.mem_cons.mp h with rfl | hmem
        · simp at hpi
        · exact hmem
      obtain ⟨k, hk⟩ := ih hi
      exact ⟨k + 1, by rw [idxIn, if_neg hpi, hk]; rfl⟩

theorem getD_replicate_false (n : Nat) :
    ∀ k : Nat, (List.replicate n false).getD k false = false := by
  induction n with
  | zero => intro k; rfl
  | succ n ih =>
    intro k
    cases k with
    | zero => rfl
    | succ k' => exact ih k'

theorem getD_set_self {sel : List Bool} {k : Nat} (h : k < sel.length) :
    (sel.set k true).getD k false = true := by
  simp [List.getD_eq_getElem?_getD, List.getElem?_set, h]

theorem getD_set_other {sel : List Bool} {j k : Nat} (h : j ≠ k) :
    (sel.set k true).getD j false = sel.getD j false := by
  simp [List.getD_eq_getElem?_getD, List.getElem?_set, (Ne.symm h : ¬ k = j)]

theorem maskHead_div (b : Bool) (m : Nat) :
    ((if b then 1 else 0) + 2 * m) / 2 = m := by
  cases b <;> simp <;> omega

theorem maskHead_mod (b : Bool) (m : Nat) :
    ((if b then 1 else 0) + 2 * m) % 2 = if b then 1 else 0 := by
  cases b <;> simp <;> omega

theorem testBit_maskOf (sel : List Bool) :
    ∀ k, (maskOf sel).testBit k = sel.getD k false := by
  induction sel with
  | nil =>
    intro k
    rw [show maskOf [] = 0 from rfl, Nat.zero_testBit]
    rfl
  | cons b bs ih =>
    intro k
    have hm : maskOf (b :: bs) = (if b then 1 else 0) + 2 * maskOf bs := rfl
    cases k with
    | zero =>
      rw [hm, Nat.testBit_zero, maskHead_mod]
      cases b
      · rfl
      · rfl
    | succ k' =>
      rw [hm, Nat.testBit_succ, maskHead_div, ih k']
      rfl

theorem maskOf_lt (sel : List Bool) : maskOf sel < 2 ^ sel.length := by
  induction sel with
  | nil => simp [maskOf]
  | cons b bs ih =>
    have hm : maskOf (b :: bs) = (if b then 1 else 0) + 2 * maskOf bs := rfl
    have hb : (if b then 1 else 0) ≤ 1 := by cases b <;> simp
    rw [hm, List.length_cons, Nat.pow_succ]
    omega

theorem reconGo_of_le {tokens fro : List Str} {t0 : Str} {t1 : List Str}
    {P : List Nat} {mask i : Nat} (h : tokens.length ≤ i) :
    ∀ fuel, reconGo tokens fro t0 t1 P mask fuel i = [] := by
  intro fuel
  cases fuel with
  | zero => rfl
  | succ f =>
    unfold reconGo
    rw [dif_neg (by omega)]

theorem reconGo_step_none {tokens fro : List Str} {t0 : Str} {t1 : List Str}
    {P : List Nat} {mask fuel i : Nat} (hlt : i < tokens.length)
    (hIdx : idxIn P i = none) :
    reconGo tokens fro t0 t1 P mask (fuel + 1) i =
      tokens.get ⟨i, hlt⟩ :: reconGo tokens fro t0 t1 P mask fuel (i + 1) := by
  simp only [reconGo, dif_pos hlt, hIdx]

theorem reconGo_step_bit {tokens fro : List Str} {t0 : Str} {t1 : List Str}
    {P : List Nat} {mask fuel i k : Nat} (hlt : i < tokens.length)
    (hIdx : idxIn P i = some k) (hbit : mask.testBit k = true) :
    reconGo tokens fro t0 t1 P mask (fuel + 1) i =
      fro ++ reconGo tokens fro t0 t1 P mask fuel (i + (t0 :: t1).length) := by
  simp only [reconGo, dif_pos hlt, hIdx, hbit, if_true]

theorem reconGo_step_nobit {tokens fro : List Str} {t0 : Str} {t1 : List Str}
    {P : List Nat} {mask fuel i k : Nat} (hlt : i < tokens.length)
    (hIdx : idxIn P i = some k) (hbit : mask.testBit k = false) :
    reconGo tokens fro t0 t1 P mask (fuel + 1) i =
      tokens.get ⟨i, hlt⟩ :: reconGo tokens fro t0 t1 P mask fuel (i + 1) := by
  simp only [reconGo, dif_pos hlt, hIdx, hbit]
  rfl

theorem reconGo_congr {tokens fro : List Str} {t0 : Str} {t1 : List Str}
    {P : List Nat} :
    ∀ (fuel i m1 m2 : Nat),
      (∀ k p, P.get? k = some p → i ≤ p → m1.testBit k = m2.testBit k) →
      reconGo tokens fro t0 t1 P m1 fuel i = reconGo tokens fro t0 t1 P m2 fuel i := by
  intro fuel
  induction fuel with
  | zero => intro i m1 m2 _; rfl
  | succ f ih =>
    intro i m1 m2 h
    by_cases hlt : i < tokens.length
    · rcases hIdx : idxIn P i with _ | k
      · rw [reconGo_step_none hlt hIdx, reconGo_step_none hlt hIdx]
        congr 1
        exact ih (i + 1) m1 m2 (fun k p hk hp => h k p hk (by omega))
      · have hget := idxIn_get hIdx
        have hbit := h k i hget (le_refl i)
        rcases hb : m2.testBit k with _ | _
        · rw [reconGo_step_nobit hlt hIdx (hbit.trans hb),
            reconGo_step_nobit hlt hIdx hb]
          congr 1
          exact ih (i + 1) m1 m2 (fun k' p hk hp => h k' p hk (by omega))
        · rw [reconGo_step_bit hlt hIdx (hbit.trans hb), reconGo_step_bit hlt hIdx hb]
          congr 1
          exact ih (i + (t0 :: t1).length) m1 m2 (fun k' p hk hp => h k' p hk (by omega))
    · rw [reconGo_of_le (by omega), reconGo_of_le (by omega)]

theorem reinsert_eq_of_no_pos {post fro : List Str} {t0 : Str} {t1 : List Str}
    (hP : ctxFreePos post t0 t1 = []) :
    ∀ (n i : Nat) (pre : List Str), post.length - i ≤ n → i ≤ post.length →
      Reinsert (t0 :: t1) fro (post.drop i) pre → pre = post.drop i := by
  intro n
  induction n with
  | zero =>
    intro i pre hn _ hder
    have hge : post.length ≤ i := by omega
    rw [List.drop_eq_nil_of_le hge] at hder ⊢
    cases hder
    rfl
  | succ n ih =>
    intro i pre hn hi hder
    by_cases hlt : i < post.length
    · generalize hD : post.drop i = D at hder
      cases hder with
      | nil => rfl
      | keep hrec =>
        rename_i x post' pre'
        have hdrop : post.drop i = post.get ⟨i, hlt⟩ :: post.drop (i + 1) :=
          List.drop_eq_getElem_cons hlt
        have hcons := hD.symm.trans hdrop
        injection hcons with hx1 hx2
        have hpre := ih (i + 1) pre' (by omega) (by omega) (hx2 ▸ hrec)
        rw [hpre, hx2]
      | swap hrec =>
        rename_i post' pre'
        exfalso
        have hpfx : (t0 :: t1).isPrefixOf (post.drop i) = true :=
          isPrefixOfG_iff.mpr ⟨post', hD.symm⟩
        have hmem : i ∈ ctxFreePos post t0 t1 := mem_ctxFreePos.mpr ⟨by omega, hpfx⟩
        rw [hP] at hmem
        cases hmem
    · have hge : post.length ≤ i := by omega
      rw [List.drop_eq_nil_of_le hge] at hder ⊢
      cases hder
      rfl

theorem recon_complete {post fro : List Str} {t0 : Str} {t1 : List Str} :
    ∀ (n i : Nat) (pre : List Str), post.length - i ≤ n → i ≤ post.length →
      Reinsert (t0 :: t1) fro (post.drop i) pre →
      ∃ sel : List Bool, sel.length = (ctxFreePos post t0 t1).length ∧
        (∀ k, sel.getD k false = true →
          ∃ p, (ctxFreePos post t0 t1).get? k = some p ∧ i ≤ p) ∧
        ∀ fuel, post.length - i ≤ fuel →
          reconGo post fro t0 t1 (ctxFreePos post t0 t1) (maskOf sel) fuel i = pre := by
  intro n
  induction n with
  | zero =>
    intro i pre hn _ hder
    have hge : post.length ≤ i := by omega
    rw [List.drop_eq_nil_of_le hge] at hder
    cases hder
    refine ⟨List.replicate (ctxFreePos post t0 t1).length false, by simp, ?_, ?_⟩
    · intro k hk
      rw [getD_replicate_false] at hk
      cases hk
    · intro fuel _
      rw [reconGo_of_le hge]
  | succ n ih =>
    intro i pre hn hi hder
    by_cases hlt : i < post.length
    · generalize hD : post.drop i = D at hder
      cases hder with
      | nil =>
        exfalso
        have hne : post.drop i ≠ [] := by
          intro hnil
          have h0 : (post.drop i).length = 0 := by rw [hnil]; rfl
          simp only [List.length_drop] at h0
          omega
        exact hne hD
      | keep hrec =>
        rename_i x post' pre'
        have hdrop : post.drop i = post.get ⟨i, hlt⟩ :: post.drop (i + 1) :=
          List.drop_eq_getElem_cons hlt
        have hcons := hD.symm.trans hdrop
        injection hcons with hx1 hx2
        obtain ⟨sel, hlen, hbits, hrecon⟩ :=
          ih (i + 1) pre' (by omega) (by omega) (hx2 ▸ hrec)
        refine ⟨sel, hlen, ?_, ?_⟩
        · intro k hk
          obtain ⟨p, hp, hpi⟩ := hbits k hk
          exact ⟨p, hp, by omega⟩
        · intro fuel hfuel
          cases fuel with
          | zero => omega
          | succ f =>
            rcases hIdx : idxIn (ctxFreePos post t0 t1) i with _ | k
            · rw [reconGo_step_none hlt hIdx, hrecon f (by omega), ← hx1]
            · have hget := idxIn_get hIdx
              have hbitF : (maskOf sel).testBit k = false := by
                rw [testBit_maskOf]
                rcases hb : sel.getD k false with _ | _
                · rfl
                · obtain ⟨p, hp, hpi⟩ := hbits k hb
                  have hpeq : i = p := Option.some.inj (hget.symm.trans hp)
                  omega
              rw [reconGo_step_nobit hlt hIdx hbitF, hrecon f (by omega), ← hx1]
      | swap hrec =>
        rename_i post' pre'
        have hpfx : (t0 :: t1).isPrefixOf (post.drop i) = true :=
          isPrefixOfG_iff.mpr ⟨post', hD.symm⟩
        have hmem : i ∈ ctxFreePos post t0 t1 := mem_ctxFreePos.mpr ⟨by omega, hpfx⟩
        obtain ⟨k, hk⟩ := idxIn_of_mem hmem
        have hget := idxIn_get hk
        have hklt : k < (ctxFreePos post t0 t1).length := by
          obtain ⟨h2, _⟩ := List.get?_eq_some.mp hget
          exact h2
        have hl1 : (t0 :: t1).length = t1.length + 1 := by simp
        have hlenle : (t0 :: t1).length ≤ post.length - i := by
          have := pfxG_len_le hpfx
          simpa using this
        have hpost' : post' = post.drop (i + (t0 :: t1).length) := by
          have h1 : (post.drop i).drop (t0 :: t1).length = post' := by
            rw [hD]
            simpa using List.drop_append (t0 :: t1) post' 0
          rw [List.drop_drop] at h1
          exact h1.symm
        obtain ⟨sel', hlen', hbits', hrecon'⟩ :=
          ih (i + (t0 :: t1).length) pre' (by omega) (by omega) (hpost' ▸ hrec)
        refine ⟨sel'.set k true, by simpa using hlen', ?_, ?_⟩
        · intro j hj
          by_cases hjk : j = k
          · subst hjk
            exact ⟨i, hget, le_refl i⟩
          · rw [getD_set_other hjk] at hj
            obtain ⟨p, hp, hpi⟩ := hbits' j hj
            exact ⟨p, hp, by omega⟩
        · intro fuel hfuel
          cases fuel with
          | zero => omega
          | succ f =>
            have hbitT : (maskOf (sel'.set k true)).testBit k = true := by
              rw [testBit_maskOf]
              exact getD_set_self (by omega)
            rw [reconGo_step_bit hlt hk hbitT]
            have hcongr : reconGo post fro t0 t1 (ctxFreePos post t0 t1)
                (maskOf (sel'.set k true)) f (i + (t0 :: t1).length) =
                reconGo post fro t0 t1 (ctxFreePos post t0 t1)
                  (maskOf sel') f (i + (t0 :: t1).length) := by
              apply reconGo_congr
              intro k' p hk' hp
              rw [testBit_maskOf, testBit_maskOf]
              by_cases hkk : k' = k
              · subst hkk
                exfalso
                have hpeq : i = p := Option.some.inj (hget.symm.trans hk')
                omega
              · rw [getD_set_other hkk]
            rw [hcongr, hrecon' f (by omega)]
    · have hge : post.length ≤ i := by omega
      rw [List.drop_eq_nil_of_le hge] at hder
      cases hder
      refine ⟨List.replicate (ctxFreePos post t0 t1).length false, by simp, ?_, ?_⟩
      · intro k hk
        rw [getD_replicate_false] at hk
        cases hk
      · intro fuel _
        rw [reconGo_of_le hge]

theorem reverseOneRule_cons_eq (post fro : List Str) (t0 : Str) (t1 : List Str)
    (src : List Str) :
    reverseOneRule post { from_ := fro, to_ := t0 :: t1 } src =
      (if (ctxFreePos post t0 t1).isEmpty then [post]
       else (List.range (2 ^ (ctxFreePos post t0 t1).length)).map (fun mask =>
         reconGo post fro t0 t1 (ctxFreePos post t0 t1) mask post.length 0)) := rfl

theorem reverseOne_complete {post pre fro : List Str} {t0 : Str} {t1 : List Str}
    (src : List Str) (hrein : Reinsert (t0 :: t1) fro post pre) :
    pre ∈ reverseOneRule post { from_ := fro, to_ := t0 :: t1 } src := by
  rw [reverseOneRule_cons_eq]
  by_cases hE : (ctxFreePos post t0 t1).isEmpty = true
  · rw [if_pos hE]
    have hP : ctxFreePos post t0 t1 = [] := List.isEmpty_iff.mp hE
    have hpre : pre = post := by
      have := reinsert_eq_of_no_pos hP post.length 0 pre (Nat.sub_le _ _) (Nat.zero_le _)
        (by simpa using hrein)
      simpa using this
    simp [hpre]
  · rw [if_neg hE]
    obtain ⟨sel, hlen, _, hrecon⟩ :=
      recon_complete post.length 0 pre (Nat.sub_le _ _) (Nat.zero_le _)
        (by simpa using hrein)
    refine List.mem_map.mpr ⟨maskOf sel, List.mem_range.mpr ?_, ?_⟩
    · rw [← hlen]
      exact maskOf_lt sel
    · exact hrecon post.length (by omega)

/-! ## Key sets, serialization, and the reverse fold (claim C1) -/

theorem mem_addKey {α} [DecidableEq α] {l : List α} {x y : α} :
    y ∈ addKey l x ↔ y ∈ l ∨ y = x := by
  by_cases hx : x ∈ l
  · rw [addKey, if_pos hx]
    constructor
    · exact Or.inl
    · rintro (h | rfl)
      · exact h
      · exact hx
  · rw [addKey, if_neg hx]
    simp

theorem mem_foldl_addKey {α} [DecidableEq α] :
    ∀ (l init : List α) (y : α), y ∈ l.foldl addKey init ↔ y ∈ init ∨ y ∈ l := by
  intro l
  induction l with
  | nil => simp
  | cons x xs ih =>
    intro init y
    rw [List.foldl_cons, ih, mem_addKey, List.mem_cons]
    tauto

theorem serialize_roundtrip {ts : List Str} (h : ∀ u ∈ ts, CleanTok u) :
    deserializeTokens (serializeTokens ts) = ts := by
  cases ts with
  | nil => rfl
  | cons t rest =>
    have hs : serializeTokens (t :: rest) = List.intercalate [SEP] (t :: rest) := by
      rw [serializeTokens, if_neg (by simp)]
    have hsplit : (List.intercalate [SEP] (t :: rest)).splitOn SEP = t :: rest :=
      List.splitOn_intercalate (t :: rest) SEP (fun l hl => (h l hl).2) (by simp)
    have hne : (List.intercalate [SEP] (t :: rest)).isEmpty = false := by
      rcases hi : List.intercalate [SEP] (t :: rest) with _ | ⟨c, cs⟩
      · exfalso
        rw [hi, List.splitOn_nil] at hsplit
        injection hsplit with h1 _
        exact (h t (List.mem_cons_self _ _)).1 h1.symm
      · rfl
    rw [hs]
    unfold deserializeTokens
    rw [hne]
    simpa using hsplit

theorem expandedSourcePhonemes_no_del {rules : List Rule} {src : List Str}
    (h : ∀ r ∈ rules, r.to_ ≠ []) :
    expandedSourcePhonemes rules src = src.foldl addKey [] := by
  unfold expandedSourcePhonemes
  have hf : rules.filter (fun r => r.to_.isEmpty) = [] :=
    List.filter_eq_nil_iff.mpr (fun r hr => by
      simpa [List.isEmpty_iff] using h r hr)
  rw [hf]
  simp

theorem mem_expandedSourcePhonemes {rules : List Rule} {src : List Str}
    (h : ∀ r ∈ rules, r.to_ ≠ []) (x : Str) :
    x ∈ expandedSourcePhonemes rules src ↔ x ∈ src := by
  rw [expandedSourcePhonemes_no_del h, mem_foldl_addKey]
  simp

theorem firstMatch_congr {inv1 inv2 : List Str} (h : ∀ u, u ∈ inv1 ↔ u ∈ inv2)
    (rem : Str) :
    firstMatch (sortByLenDesc inv1) rem = firstMatch (sortByLenDesc inv2) rem := by
  rcases h1 : firstMatch (sortByLenDesc inv1) rem with _ | t
  · rcases h2 : firstMatch (sortByLenDesc inv2) rem with _ | t2
    · rfl
    · exfalso
      have hl2 : LongestTok inv2 rem t2 := firstMatch_some_iff.mp h2
      have := firstMatch_none_iff.mp h1 t2 ((h t2).mpr hl2.1)
      rw [hl2.2.1] at this
      cases this
  · have hl : LongestTok inv1 rem t := firstMatch_some_iff.mp h1
    have hl2 : LongestTok inv2 rem t :=
      ⟨(h t).mp hl.1, hl.2.1, fun u hu hp => hl.2.2 u ((h u).mpr hu) hp⟩
    exact (firstMatch_some_iff.mpr hl2).symm

theorem tokenizeGo_congr {inv1 inv2 : List Str} (h : ∀ u, u ∈ inv1 ↔ u ∈ inv2) :
    ∀ (fuel pos : Nat) (rem : Str),
      tokenizeGo (sortByLenDesc inv1) fuel pos rem =
        tokenizeGo (sortByLenDesc inv2) fuel pos rem := by
  intro fuel
  induction fuel with
  | zero => intro pos rem; cases rem <;> rfl
  | succ f ih =>
    intro pos rem
    cases rem with
    | nil => rfl
    | cons c rest =>
      have hFM := firstMatch_congr h (c :: rest)
      rcases hFM1 : firstMatch (sortByLenDesc inv1) (c :: rest) with _ | t
      · rw [tokenizeGo_step_none hFM1, tokenizeGo_step_none (by rw [← hFM, hFM1])]
      · cases t with
        | nil =>
          rw [tokenizeGo_step_empty hFM1, tokenizeGo_step_empty (by rw [← hFM, hFM1])]
        | cons u0 u1 =>
          rw [tokenizeGo_step_cons hFM1, tokenizeGo_step_cons (by rw [← hFM, hFM1]), ih]

theorem tokenizeWith_congr {inv1 inv2 : List Str} (h : ∀ u, u ∈ inv1 ↔ u ∈ inv2)
    (w : Str) :
    tokenizeWith w (sortByLenDesc inv1) = tokenizeWith w (sortByLenDesc inv2) :=
  tokenizeGo_congr h w.length 0 w

theorem collectResults_step_div {sortedSrcE : List Str}
    {srcPt : Option (List PhonotacticPattern)} {k : Str} {ks : List Str}
    (h : tokenizeWith (deserializeTokens k).flatten sortedSrcE = none) :
    collectResults sortedSrcE srcPt (k :: ks) = none := by
  simp only [collectResults, h]

theorem collectResults_step_err {sortedSrcE : List Str}
    {srcPt : Option (List PhonotacticPattern)} {k : Str} {ks : List Str} {p : Nat}
    (h : tokenizeWith (deserializeTokens k).flatten sortedSrcE =
      some (Except.error p)) :
    collectResults sortedSrcE srcPt (k :: ks) = collectResults sortedSrcE srcPt ks := by
  simp only [collectResults, h]

theorem collectResults_step_ok {sortedSrcE : List Str} {k : Str} {ks : List Str}
    {ts : List Str}
    (h : tokenizeWith (deserializeTokens k).flatten sortedSrcE = some (Except.ok ts)) :
    collectResults sortedSrcE none (k :: ks) =
      (collectResults sortedSrcE none ks).map
        (fun l => (deserializeTokens k).flatten :: l) := by
  simp only [collectResults, h]

theorem collectResults_total {inv : List Str} (hne : ∀ u ∈ inv, u ≠ []) :
    ∀ keys : List Str, ∃ res, collectResults (sortByLenDesc inv) none keys = some res := by
  intro keys
  induction keys with
  | nil => exact ⟨[], rfl⟩
  | cons k ks ih =>
    obtain ⟨res, hres⟩ := ih
    obtain ⟨r, hr⟩ := tokenizeGo_total hne (deserializeTokens k).flatten.length 0
      (deserializeTokens k).flatten (le_refl _)
    have hr' : tokenizeWith (deserializeTokens k).flatten (sortByLenDesc inv) =
        some r := hr
    rcases r with p | ts
    · exact ⟨res, by rw [collectResults_step_err hr', hres]⟩
    · exact ⟨(deserializeTokens k).flatten :: res, by
        rw [collectResults_step_ok hr', hres]; rfl⟩

theorem collectResults_mem {sortedSrcE : List Str} :
    ∀ (keys res : List Str) (k : Str) (ts : List Str),
      collectResults sortedSrcE none keys = some res →
      k ∈ keys →
      tokenizeWith (deserializeTokens k).flatten sortedSrcE = some (Except.ok ts) →
      (deserializeTokens k).flatten ∈ res := by
  intro keys
  induction keys with
  | nil =>
    intro res k ts _ hk _
    cases hk
  | cons k0 ks ih =>
    intro res k ts h hk hok
    rcases List.mem_cons.mp hk with rfl | hk'
    · rw [collectResults_step_ok hok] at h
      rcases hc : collectResults sortedSrcE none ks with _ | res'
      · rw [hc] at h; cases h
      · rw [hc] at h
        have hres : res = (deserializeTokens k).flatten :: res' := by
          simpa using (Option.some.inj h).symm
        rw [hres]
        exact List.mem_cons_self _ _
    · rcases h0 : tokenizeWith (deserializeTokens k0).flatten sortedSrcE with _ | r0
      · rw [collectResults_step_div h0] at h; cases h
      · rcases r0 with p | ts0
        · rw [collectResults_step_err h0] at h
          exact ih res k ts h hk' hok
        · rw [collectResults_step_ok h0] at h
          rcases hc : collectResults sortedSrcE none ks with _ | res'
          · rw [hc] at h; cases h
          · rw [hc] at h
            have hres : res = (deserializeTokens k0).flatten :: res' := by
              simpa using (Option.some.inj h).symm
            rw [hres]
            exact List.mem_cons.mpr (Or.inr (ih res' k ts hc hk' hok))

theorem fold_complete {expSrc : List Str} :
    ∀ (rules : List Rule) (keys : List Str) (ts : List Str),
      (∀ r ∈ rules, r.from_ ≠ [] ∧ r.to_ ≠ [] ∧ r.leftContext = none ∧
        r.rightContext = none ∧ ∀ u ∈ r.to_, CleanTok u) →
      (∀ u ∈ ts, CleanTok u) →
      serializeTokens (applyTokens rules ts) ∈ keys →
      serializeTokens ts ∈ rules.reverse.foldl (reverseStep expSrc) keys := by
  intro rules
  induction rules with
  | nil =>
    intro keys ts _ _ h
    simpa [applyTokens] using h
  | cons r rs ih =>
    intro keys ts hr hts h
    obtain ⟨hfne, htne, hlc, hrc, hclean⟩ := hr r (List.mem_cons_self _ _)
    obtain ⟨f0, frest, hf⟩ : ∃ f0 frest, r.from_ = f0 :: frest := by
      rcases hfrom : r.from_ with _ | ⟨f0, frest⟩
      · exact absurd hfrom hfne
      · exact ⟨f0, frest, rfl⟩
    obtain ⟨tt0, tt1, ht⟩ : ∃ tt0 tt1, r.to_ = tt0 :: tt1 := by
      rcases hto : r.to_ with _ | ⟨tt0, tt1⟩
      · exact absurd hto htne
      · exact ⟨tt0, tt1, rfl⟩
    have hpp : applyRuleToTokens ts r = plainPass f0 frest r.to_ ts :=
      applyRule_eq_plainPass hf hlc hrc
    have hts' : ∀ u ∈ applyRuleToTokens ts r, CleanTok u := by
      intro u hu
      rw [hpp] at hu
      rcases plainPass_tokens_subset ts.length ts (le_refl _) u hu with h' | h'
      · exact hclean u h'
      · exact hts u h'
    have hstep : applyTokens (r :: rs) ts = applyTokens rs (applyRuleToTokens ts r) := rfl
    have hmem' : serializeTokens (applyRuleToTokens ts r) ∈
        rs.reverse.foldl (reverseStep expSrc) keys := by
      apply ih keys (applyRuleToTokens ts r)
        (fun r' hr' => hr r' (List.mem_cons_of_mem _ hr')) hts'
      rw [← hstep]
      exact h
    have hrev : (r :: rs).reverse = rs.reverse ++ [r] := by simp
    rw [hrev, List.foldl_append]
    simp only [List.foldl_cons, List.foldl_nil]
    unfold reverseStep
    rw [mem_foldl_addKey]
    refine Or.inr (List.mem_flatten.mpr ?_)
    refine ⟨(reverseOneRule (deserializeTokens (serializeTokens (applyRuleToTokens ts r)))
        r expSrc).map serializeTokens, ?_, ?_⟩
    · exact List.mem_map.mpr ⟨serializeTokens (applyRuleToTokens ts r), hmem', rfl⟩
    · refine List.mem_map.mpr ⟨ts, ?_, rfl⟩
      rw [serialize_roundtrip hts']
      have hrule : r = { from_ := f0 :: frest, to_ := tt0 :: tt1 } := by
        cases r
        simp_all
      rw [hrule]
      apply reverseOne_complete
      have hpp2 : applyRuleToTokens ts { from_ := f0 :: frest, to_ := tt0 :: tt1 } =
          plainPass f0 frest (tt0 :: tt1) ts := by
        rw [← hrule, hpp, ht]
      rw [hpp2]
      exact plainPass_reinsert ts.length ts (le_refl _)

/-! ## The round-trip claim (C1) -/

/-- **C1** (amended): the round trip holds for context-free rule lists with
non-empty `from` and non-empty `to` (no deletion rules, as in the original
claim), well-formed phoneme tokens (non-empty, separator-free) in the
source inventory and in every rule's `to`, and an output word whose
tokenization under the target inventory recovers exactly the engine's
final token sequence: then `reverseRules (applyRules w) ` succeeds and its
result list contains `w`.  (The unrestricted original claim is refuted by
`claimC1_counterexample`: target-side retokenization can regroup the
output so that no candidate reverses back to `w`.) -/
theorem claimC1_round_trip (w : Str) (rules : List Rule) (src tgt : List Str)
    (tgtPt : Option (List PhonotacticPattern)) (t0 : List Str)
    (hsrc : ∀ u ∈ src, CleanTok u)
    (hrules : ∀ r ∈ rules, r.from_ ≠ [] ∧ r.to_ ≠ [] ∧ r.leftContext = none ∧
      r.rightContext = none ∧ ∀ u ∈ r.to_, CleanTok u)
    (htok : tokenize w src = some (Except.ok t0))
    (hstable : tokenizeWith (applyTokens rules t0).flatten (sortByLenDesc tgt) =
      some (Except.ok (applyTokens rules t0))) :
    ∃ res, applyRules w rules src tgt =
        some (Except.ok (applyTokens rules t0).flatten) ∧
      reverseRules (applyTokens rules t0).flatten rules src tgt none tgtPt =
        some (Except.ok res) ∧ w ∈ res := by
  have htok' : tokenizeGo (sortByLenDesc src) w.length 0 w = some (Except.ok t0) := htok
  have ht0clean : ∀ u ∈ t0, CleanTok u := by
    intro u hu
    have := tokenizeGo_ok_mem w.length 0 w t0 htok' u hu
    exact hsrc u (mem_sortByLenDesc.mp this)
  have hflat : t0.flatten = w := tokenizeGo_ok_flatten w.length 0 w t0 htok'
  have happly : applyRules w rules src tgt =
      some (Except.ok (applyTokens rules t0).flatten) := by
    unfold applyRules
    rw [htok]
    rfl
  have htne : ∀ r ∈ rules, r.to_ ≠ [] := fun r hr => (hrules r hr).2.1
  have hexpne : ∀ u ∈ expandedSourcePhonemes rules src, u ≠ [] := by
    intro u hu
    exact (hsrc u ((mem_expandedSourcePhonemes htne u).mp hu)).1
  obtain ⟨res0, hres0⟩ := collectResults_total hexpne
    (rules.reverse.foldl (reverseStep (expandedSourcePhonemes rules src))
      [serializeTokens (applyTokens rules t0)])
  have hkey : serializeTokens t0 ∈
      rules.reverse.foldl (reverseStep (expandedSourcePhonemes rules src))
        [serializeTokens (applyTokens rules t0)] :=
    fold_complete rules _ t0 hrules ht0clean (List.mem_singleton.mpr rfl)
  have hde : deserializeTokens (serializeTokens t0) = t0 := serialize_roundtrip ht0clean
  have hsrcok : tokenizeWith (deserializeTokens (serializeTokens t0)).flatten
      (sortByLenDesc (expandedSourcePhonemes rules src)) = some (Except.ok t0) := by
    rw [hde, hflat, tokenizeWith_congr (mem_expandedSourcePhonemes htne) w]
    exact htok
  have hwmem : w ∈ res0 := by
    have := collectResults_mem _ res0 (serializeTokens t0) t0 hres0 hkey hsrcok
    rwa [hde, hflat] at this
  refine ⟨sortLex res0, happly, ?_, mem_sortLex.mpr hwmem⟩
  unfold reverseRules
  simp only [reverseWord, hstable]
  rw [hres0]
  rfl

/-- Witness for the amended C1: with the single rule `a > x`, source
inventory `{a, b}`, target inventory `{x, b}`, the word `ab` maps forward
to `xb` and the reverse image of `xb` contains `ab`. -/
theorem claimC1_round_trip_witness :
    ∃ res,
      applyRules (str "ab") [{ from_ := [str "a"], to_ := [str "x"] }]
          [str "a", str "b"] [str "x", str "b"] =
        some (Except.ok (applyTokens [{ from_ := [str "a"], to_ := [str "x"] }]
          [str "a", str "b"]).flatten) ∧
      reverseRules (applyTokens [{ from_ := [str "a"], to_ := [str "x"] }]
          [str "a", str "b"]).flatten [{ from_ := [str "a"], to_ := [str "x"] }]
          [str "a", str "b"] [str "x", str "b"] none none =
        some (Except.ok res) ∧ str "ab" ∈ res :=
  claimC1_round_trip (str "ab") [{ from_ := [str "a"], to_ := [str "x"] }]
    [str "a", str "b"] [str "x", str "b"] none [str "a", str "b"]
    (by decide) (by decide) rfl rfl

/-- Counterexample to the unrestricted C1: with rules `c > a; d > b;`,
source inventory `{c, d}` and target inventory `{a, b, ab}`, the word `cd`
tokenizes under the source inventory and maps forward to `ab`; but the
reverser retokenizes `ab` as the single target phoneme `ab`, in which
neither `a` nor `b` occurs as a token, so every reverse pass leaves the
candidate unchanged, the lone candidate fails source-side tokenization,
and the returned list is empty — it does not contain `cd`. -/
theorem claimC1_counterexample :
    tokenize (str "cd") [str "c", str "d"] =
      some (Except.ok [str "c", str "d"]) ∧
    applyRules (str "cd")
        [{ from_ := [str "c"], to_ := [str "a"] },
         { from_ := [str "d"], to_ := [str "b"] }]
        [str "c", str "d"] [str "a", str "b", str "ab"] =
      some (Except.ok (str "ab")) ∧
    reverseRules (str "ab")
        [{ from_ := [str "c"], to_ := [str "a"] },
         { from_ := [str "d"], to_ := [str "b"] }]
        [str "c", str "d"] [str "a", str "b", str "ab"] none none =
      some (Except.ok []) :=
  ⟨rfl, rfl, rfl⟩

end Phonomizer
